import Mathlib

set_option maxRecDepth 40000

/-!
Verification of the lazy-rules CSS generator (src/index.js).

The file shallowly embeds the pure pipeline of the program:
filename parsing (`getRatio`, `getSelector`), descriptor building
(`toImage`), ratio grouping (`sortImages`, `groupRuns`, `prepareImages`)
and CSS emission (`cssRule`, `compileCSS`, `processImagesCore`).
Strings are modelled by Lean `String` (a list of characters); all string
manipulation is defined on `List Char` with thin `String` wrappers.
JavaScript numbers are modelled as exact rationals.
-/

namespace LazyRules

/-- Run of characters satisfying `p`: returns the longest prefix whose
characters all satisfy `p`, together with the remaining suffix
(the semantics of a greedy character-class `+` in a regular expression). -/
def runWhile (p : Char → Bool) : List Char → List Char × List Char
  | [] => ([], [])
  | c :: cs =>
    if p c then
      let q := runWhile p cs
      (c :: q.1, q.2)
    else ([], c :: cs)

/-- ASCII letter, in the sense of the case-insensitive class `[a-z]` of the
source's `/@(\d)x\.[a-z]{3,4}$/gi` regular expression. -/
def isAsciiLetter (c : Char) : Bool := c.isUpper || c.isLower

/-- Numeric value of a decimal digit character, as `parseInt` produces for a
single digit (src/index.js line 29). -/
def digitVal (c : Char) : ℕ := c.toNat - 48

/-- Attempt to read the end-anchored match of `@(\d)x\.[a-z]{3,4}$` with a
three-letter extension against the reversed character list of the path
(src/index.js line 27; the `i` flag makes `x` and the letters
case-insensitive). Returns the captured digit's value. -/
def ratioThree : List Char → Option ℕ
  | e1 :: e2 :: e3 :: d :: x :: dg :: a :: _ =>
    if isAsciiLetter e1 && isAsciiLetter e2 && isAsciiLetter e3 && d == '.' &&
        (x == 'x' || x == 'X') && dg.isDigit && a == '@' then
      some (digitVal dg)
    else none
  | _ => none

/-- Attempt to read the end-anchored match of `@(\d)x\.[a-z]{3,4}$` with a
four-letter extension against the reversed character list of the path. -/
def ratioFour : List Char → Option ℕ
  | e1 :: e2 :: e3 :: e4 :: d :: x :: dg :: a :: _ =>
    if isAsciiLetter e1 && isAsciiLetter e2 && isAsciiLetter e3 && isAsciiLetter e4 &&
        d == '.' && (x == 'x' || x == 'X') && dg.isDigit && a == '@' then
      some (digitVal dg)
    else none
  | _ => none

/-- The image ratio (src/index.js lines 25-30): the digit captured by
`/@(\d)x\.[a-z]{3,4}$/gi.exec(file)`, or 1 when the pattern does not match.
The regular expression is anchored at the end of the string, so a match is a
suffix `@` + digit + `x`/`X` + `.` + three or four ASCII letters; the two
extension lengths cannot match simultaneously, so trying them in either order
is equivalent. (The source computes `path.basename(file)` on line 26 but never
uses it; since `/` can occur in none of the pattern's character classes, the
match always lies inside the basename anyway.) -/
def getRatio (file : String) : ℕ :=
  match ratioFour file.data.reverse with
  | some d => d
  | none =>
    match ratioThree file.data.reverse with
    | some d => d
    | none => 1

/-- Last path component: the characters after the final `/`.  Models Node's
`path.basename` for POSIX paths without a trailing separator (the only shape
the pipeline feeds it). -/
def basenameData (l : List Char) : List Char := (l.reverse.takeWhile (· != '/')).reverse

/-- String wrapper for `basenameData`. -/
def basename (s : String) : String := String.mk (basenameData s.data)

/-- Does the list begin with `.` followed by at least one character, with
every following character reaching the end of the string (the `\..+$` part of
the strip pattern; `.` in a JavaScript regex does not match a newline and `$`
without the `m` flag only matches at the end of input)? -/
def dotTail : List Char → Bool
  | '.' :: rest => !rest.isEmpty && rest.all (fun c => c != '\n')
  | _ => false

/-- Does the list begin with `@` + one or more digits + `x`/`X` (the optional
`(@\d+x)?` group of the strip pattern, `i` flag)? On success, returns the
characters after the group.  The digit run is greedy and consists of digits
only, so no backtracking inside the group is possible. -/
def densityTail : List Char → Option (List Char)
  | '@' :: rest =>
    let q := runWhile Char.isDigit rest
    if q.1.isEmpty then none
    else
      match q.2 with
      | 'x' :: r => some r
      | 'X' :: r => some r
      | _ => none
  | _ => none

/-- Does the regular expression `(@\d+x)?\..+$` match at the head of the
list? When the optional group matches, a literal `.` must follow it; when it
is absent the `.` must be the first character. (If the group matches but no
dot follows, falling back to the empty group cannot succeed either, since the
first character is then `@`, not `.`.) -/
def matchAt (l : List Char) : Bool :=
  match densityTail l with
  | some r => dotTail r
  | none => dotTail l

/-- `name.replace(/(@\d+x)?\..+$/gi, '')` (src/index.js line 42): scan left to
right for the first position where the pattern matches; because the match
always extends to the end of the string, the result is the prefix before the
leftmost match (or the whole name when there is none). -/
def stripNameAux : List Char → List Char
  | [] => []
  | c :: cs => if matchAt (c :: cs) then [] else c :: stripNameAux cs

/-- String wrapper for `stripNameAux`. -/
def stripName (s : String) : String := String.mk (stripNameAux s.data)

/-- `name.split('_').pop()`: the text after the last underscore (the whole
name when no underscore is present). -/
def afterLastData (l : List Char) : List Char := (l.reverse.takeWhile (· != '_')).reverse

/-- String wrapper for `afterLastData`. -/
def afterLastUnderscore (s : String) : String := String.mk (afterLastData s.data)

/-- `s.replace(pat, '')` with a plain-string pattern: remove the first
occurrence of `pat`; when `pat` does not occur, the string is unchanged, and
an empty `pat` matches at position 0 so the string is also unchanged. -/
def replaceFirstData (pat : List Char) : List Char → List Char
  | [] => []
  | c :: cs =>
    if pat.isPrefixOf (c :: cs) then (c :: cs).drop pat.length
    else c :: replaceFirstData pat cs

/-- String wrapper for `replaceFirstData`. -/
def replaceFirst (s pat : String) : String := String.mk (replaceFirstData pat.data s.data)

/-- Does `pat` occur as a contiguous substring? -/
def containsSubData (pat : List Char) : List Char → Bool
  | [] => pat.isPrefixOf ([] : List Char)
  | c :: cs => pat.isPrefixOf (c :: cs) || containsSubData pat cs

/-- Word splitting of lodash's `kebabCase` collaborator, modelled for ASCII
input (the `unicodeWords`/`asciiWords` regular expressions of lodash 4,
restricted to the ASCII plane and without the `1st`/`2ND` ordinal and
apostrophe-contraction special cases, which no filename convention of this
program produces): maximal lowercase runs, maximal digit runs, and uppercase
runs that split before a trailing capitalized word; every other ASCII
character is a word break.  `fuel` is an upper bound on the number of
characters still to scan; it is always instantiated with the list length. -/
def splitWordsAux : ℕ → List Char → List (List Char)
  | 0, _ => []
  | _, [] => []
  | fuel + 1, c :: cs =>
    if c.isLower then
      let q := runWhile Char.isLower cs
      (c :: q.1) :: splitWordsAux fuel q.2
    else if c.isDigit then
      let q := runWhile Char.isDigit cs
      (c :: q.1) :: splitWordsAux fuel q.2
    else if c.isUpper then
      let u := runWhile Char.isUpper cs
      match u.2 with
      | d :: _ =>
        if d.isLower then
          match u.1 with
          | [] =>
            let q := runWhile Char.isLower u.2
            (c :: q.1) :: splitWordsAux fuel q.2
          | u1 :: ut =>
            let q := runWhile Char.isLower u.2
            (c :: u1 :: ut).dropLast ::
              ((c :: u1 :: ut).getLast (List.cons_ne_nil _ _) :: q.1) ::
              splitWordsAux fuel q.2
        else (c :: u.1) :: splitWordsAux fuel u.2
      | [] => [c :: u.1]
    else splitWordsAux fuel cs

/-- JavaScript `Array.prototype.join('-')` on word lists. -/
def kebabJoin : List (List Char) → List Char
  | [] => []
  | w :: rest => w ++ rest.foldl (fun acc v => acc ++ '-' :: v) []

/-- lodash `kebabCase`, modelled for ASCII input: remove apostrophes, split
into words, lowercase each word, join with `-`. -/
def kebabData (l : List Char) : List Char :=
  kebabJoin ((splitWordsAux (l.filter (fun c => c != '\'' && c != '’')).length
    (l.filter (fun c => c != '\'' && c != '’'))).map (List.map Char.toLower))

/-- String wrapper for `kebabData`. -/
def kebabCase (s : String) : String := String.mk (kebabData s.data)

/-- The six-clause pseudo-state selector template of src/index.js lines 50-57
(a JavaScript template literal: the clauses are separated by a comma and a
newline). -/
def sixClause (base pseudo : String) : String :=
  "." ++ base ++ "-" ++ pseudo ++
  ",\na:" ++ pseudo ++ " ." ++ base ++
  ",\nbutton:" ++ pseudo ++ " ." ++ base ++
  ",\na." ++ pseudo ++ " ." ++ base ++
  ",\nbutton." ++ pseudo ++ " ." ++ base ++
  ",\n." ++ base ++ "." ++ pseudo

/-- `getSelector` (src/index.js lines 38-61): strip the extension and any
density suffix from the basename; when the remainder contains an underscore,
set `pseudo` to the text after the last underscore and `base` to the
remainder with the first occurrence of `pseudo` removed; when both are
nonempty (the JavaScript truthiness test `base && pseudo`), emit the
six-clause template, otherwise `.` + `kebabCase` of the remainder. -/
def getSelector (file : String) : String :=
  let name := stripName (basename file)
  if name.data.contains '_' then
    let pseudo := afterLastUnderscore name
    let base := replaceFirst name pseudo
    if base ≠ "" ∧ pseudo ≠ "" then sixClause base pseudo
    else "." ++ kebabCase name
  else "." ++ kebabCase name

/-- Pixel dimensions of an image, as supplied by the external image-probing
collaborator (`image-size`); JavaScript numbers are modelled as exact
rationals. -/
structure Size where
  width : ℚ
  height : ℚ
deriving DecidableEq, Repr

/-- One asset descriptor, the object built on src/index.js lines 77-82. -/
structure Image where
  url : String
  size : Size
  ratio : ℕ
  selector : String
deriving DecidableEq, Repr

/-- Split a character list on a separator character; like JavaScript
`split`, the empty list yields one empty field. -/
def splitChar (sep : Char) : List Char → List (List Char)
  | [] => [[]]
  | c :: cs =>
    let r := splitChar sep cs
    if c = sep then [] :: r
    else
      match r with
      | [] => [[c]]
      | w :: ws => (c :: w) :: ws

/-- Join character lists with a separator list (JavaScript `join`). -/
def joinWith (sep : List Char) : List (List Char) → List Char
  | [] => []
  | w :: ws => w ++ (ws.foldl (fun acc v => acc ++ sep ++ v) [])

/-- Path components, dropping empty segments and `.` segments (Node
normalization of the relative paths the pipeline produces). -/
def pathParts (l : List Char) : List (List Char) :=
  (splitChar '/' l).filter (fun s => ¬ s.isEmpty ∧ s ≠ ['.'])

/-- Node `path.dirname` for POSIX paths without a trailing separator: the
text before the last `/`, or `.` when there is no `/`. -/
def dirname (p : String) : String :=
  let parts := splitChar '/' p.data
  if parts.length ≤ 1 then "." else String.mk (joinWith ['/'] parts.dropLast)

/-- Step up with `..` for each remaining source component, then descend into
the remaining target components. -/
def relParts : List (List Char) → List (List Char) → List (List Char)
  | f :: fs, t :: ts =>
    if f = t then relParts fs ts else (f :: fs).map (fun _ => ['.', '.']) ++ t :: ts
  | [], ts => ts
  | fs, [] => fs.map (fun _ => ['.', '.'])

/-- Node `path.relative`, modelled for relative POSIX paths that contain no
`..` segments (both arguments are resolved against the same working
directory, which therefore cancels out). -/
def relative (src tgt : String) : String :=
  String.mk (joinWith ['/'] (relParts (pathParts src.data) (pathParts tgt.data)))

/-- The `slash` module: replace backslashes by forward slashes (the
extended-length Windows-path exception cannot apply to the POSIX paths
modelled here). -/
def slash (p : String) : String :=
  String.mk (p.data.map (fun c => if c = '\\' then '/' else c))

/-- Build one descriptor (src/index.js lines 71-83): the url is the path from
the stylesheet's directory to the asset with forward slashes, and ratio and
selector come from the filename parser. -/
def toImage (stylesheet : String) (file : String) (size : Size) : Image :=
  { url := slash (relative (dirname stylesheet) file)
    size := size
    ratio := getRatio file
    selector := getSelector file }

/-- Insert a descriptor after every element of no larger ratio: one step of a
stable sort by the `ratio` key (lodash `sortBy` is a stable sort). -/
def insertImg (x : Image) : List Image → List Image
  | [] => [x]
  | y :: ys => if y.ratio ≤ x.ratio then y :: insertImg x ys else x :: y :: ys

/-- lodash `sortBy(images, 'ratio')` (src/index.js line 85): stable sort by
ascending ratio, modelled as left-to-right insertion. -/
def sortImages (l : List Image) : List Image :=
  List.foldl (fun acc x => insertImg x acc) [] l

/-- lodash `groupBy(images, 'ratio')` followed by lodash `map(groups, ...)`
(src/index.js lines 86 and 130): on the sorted list, equal ratios are
contiguous, so the groups are the maximal runs of equal ratio; the object
built by `groupBy` is keyed by the decimal string of the ratio, and
JavaScript enumerates such integer-like keys in ascending order, which on a
sorted input is exactly the run order. -/
def groupRuns : List Image → List (ℕ × List Image)
  | [] => []
  | x :: xs =>
    match groupRuns xs with
    | [] => [(x.ratio, [x])]
    | (r, g) :: rest =>
      if x.ratio = r then (r, x :: g) :: rest
      else (x.ratio, [x]) :: (r, g) :: rest

/-- `prepareImages` (src/index.js lines 70-89): descriptors, stably sorted by
ratio and grouped by ratio, in ascending ratio order. -/
def prepareImages (inputs : List (String × Size)) (stylesheet : String) :
    List (ℕ × List Image) :=
  groupRuns (sortImages (inputs.map (fun q => toImage stylesheet q.1 q.2)))

/-- Effective CSS width of a descriptor: `image.size.width/image.ratio`
(src/index.js line 101), exact rational division. -/
def effectiveWidth (i : Image) : ℚ := i.size.width / (i.ratio : ℚ)

/-- Effective CSS height of a descriptor: `image.size.height/image.ratio`
(src/index.js line 101), exact rational division. -/
def effectiveHeight (i : Image) : ℚ := i.size.height / (i.ratio : ℚ)

/-- JavaScript number-to-string conversion, modelled exactly for the integral
values arising in this development; a non-integral rational is rendered as an
exact fraction, a shape no concrete statement of this file depends on. -/
def jsNumStr (q : ℚ) : String :=
  if q.den = 1 then toString q.num else toString q.num ++ "/" ++ toString q.den

/-- The rule template of src/index.js line 101, parametrized by the
number-to-string conversion `numStr` applied to the interpolated
`${...px}` values. -/
def cssRule (numStr : ℚ → String) (i : Image) : String :=
  i.selector ++ " \x7b background: url(" ++ i.url ++
  ") no-repeat 0 0; background-size: 100% 100%; width: " ++
  numStr (effectiveWidth i) ++ "px; height: " ++ numStr (effectiveHeight i) ++
  "px; display: inline-block; vertical-align: middle; font-size: 0; \x7d"

/-- `compileCSS` (src/index.js lines 98-116): newline-join the rules of one
ratio group; when the ratio exceeds 1, wrap them in the device-pixel-ratio
media query (a template literal producing a newline and a tab before the
rules and a newline before the closing brace). -/
def compileCSS (numStr : ℚ → String) (images : List Image) (ratio : ℕ) : String :=
  let rules := String.intercalate "\n" (images.map (cssRule numStr))
  if ratio > 1 then
    "@media (-webkit-min-device-pixel-ratio: " ++ toString ratio ++
    "), (min-resolution: " ++ toString (ratio * 96) ++ "dpi) \x7b\n\t" ++ rules ++ "\n\x7d"
  else rules

/-- The pure core of `processImages` (src/index.js lines 128-131), with the
glob expansion, image probing and file writing collaborators factored out:
compile every ratio group and join the blocks with a blank line
(`groups.join('\n\n')`). -/
def processImagesCore (numStr : ℚ → String) (inputs : List (String × Size))
    (stylesheet : String) : String :=
  String.intercalate "\n\n" ((prepareImages inputs stylesheet).map
    (fun g => compileCSS numStr g.2 g.1))

/-- Concrete descriptor the pipeline builds for `circle.png` (25×25) against
the stylesheet `style.css`; used by the example computations below. -/
def circleImg : Image :=
  { url := "circle.png", size := ⟨25, 25⟩, ratio := 1, selector := ".circle" }

/-- Concrete descriptor the pipeline builds for `@2x.png` (2×2) against the
stylesheet `style.css`: the stripped basename is empty, so the selector is
the lone dot. -/
def noBaseImg : Image :=
  { url := "@2x.png", size := ⟨2, 2⟩, ratio := 2, selector := "." }

/-- Concrete descriptor with an odd width over ratio 2, exercising the
fractional (non-integer) effective size. -/
def fracImg : Image :=
  { url := "u.png", size := ⟨25, 25⟩, ratio := 2, selector := ".u" }

/-- Does the list end with `@` + one or more digits + `x`/`X` (a density
group placed at the very end)? Used to delimit the scope of the
strip-pattern lemmas. -/
def endsDensity (l : List Char) : Bool :=
  match l.reverse with
  | x :: rest =>
    (x == 'x' || x == 'X') &&
      (let q := runWhile Char.isDigit rest
       !q.1.isEmpty && q.2.head? == some '@')
  | [] => false

theorem runWhile_eq (p : Char → Bool) (l : List Char) :
    l = (runWhile p l).1 ++ (runWhile p l).2 := by
  induction l with
  | nil => rfl
  | cons c cs ih =>
    by_cases h : p c
    · simp only [runWhile, h, if_pos, List.cons_append]
      exact congrArg (c :: ·) ih
    · simp [runWhile, h]

theorem runWhile_fst_all (p : Char → Bool) (l : List Char) :
    ∀ c ∈ (runWhile p l).1, p c = true := by
  induction l with
  | nil => simp [runWhile]
  | cons c cs ih =>
    by_cases h : p c
    · simp only [runWhile, h, if_pos]
      intro d hd
      rcases List.mem_cons.mp hd with h1 | h1
      · exact h1 ▸ h
      · exact ih d h1
    · simp [runWhile, h]

theorem runWhile_snd_suffix (p : Char → Bool) (l : List Char) :
    (runWhile p l).2 <:+ l := by
  induction l with
  | nil => simp [runWhile]
  | cons c cs ih =>
    by_cases h : p c
    · simp only [runWhile, h, if_pos]
      exact ih.trans (List.suffix_cons c cs)
    · simp [runWhile, h]

theorem runWhile_snd_head (p : Char → Bool) (l : List Char) :
    ∀ c cs, (runWhile p l).2 = c :: cs → p c = false := by
  induction l with
  | nil => simp [runWhile]
  | cons d ds ih =>
    by_cases h : p d
    · simp only [runWhile, h, if_pos]
      exact ih
    · simp only [runWhile, h, if_neg, Bool.false_eq_true, not_false_iff]
      intro c cs hc
      cases hc
      simpa using h

theorem runWhile_append_all (p : Char → Bool) (l m : List Char)
    (h : ∀ c ∈ l, p c = true) :
    runWhile p (l ++ m) = (l ++ (runWhile p m).1, (runWhile p m).2) := by
  induction l with
  | nil => simp
  | cons c cs ih =>
    have hc : p c = true := h c (List.mem_cons_self c cs)
    have hih := ih (fun d hd => h d (List.mem_cons_of_mem c hd))
    simp only [List.cons_append, runWhile, hc, if_pos, List.append_eq, hih]

theorem runWhile_stop (p : Char → Bool) (c : Char) (l : List Char)
    (h : p c = false) : runWhile p (c :: l) = ([], c :: l) := by
  simp [runWhile, h]

theorem runWhile_append_stop (p : Char → Bool) (l m : List Char) (c : Char)
    (cs : List Char) (h : (runWhile p l).2 = c :: cs) :
    runWhile p (l ++ m) = ((runWhile p l).1, c :: (cs ++ m)) := by
  induction l with
  | nil => exact absurd h (by simp [runWhile])
  | cons d ds ih =>
    by_cases hd : p d
    · simp only [runWhile, hd, if_true] at h
      simp only [List.cons_append, runWhile, hd, if_true, List.append_eq, ih h]
    · rw [runWhile_stop p d ds (by simpa using hd)] at h
      cases h
      simp [List.cons_append, runWhile, hd]

theorem densityTail_not_at (c : Char) (rest : List Char) (h : c ≠ '@') :
    densityTail (c :: rest) = none := by
  unfold densityTail
  split
  · next heq => cases heq; exact absurd rfl h
  · rfl

theorem dotTail_not_dot (c : Char) (rest : List Char) (h : c ≠ '.') :
    dotTail (c :: rest) = false := by
  unfold dotTail
  split
  · next heq => cases heq; exact absurd rfl h
  · rfl

theorem dotTail_dot (t : List Char) :
    dotTail ('.' :: t) = (!t.isEmpty && t.all (fun c => c != '\n')) := rfl

theorem dotTail_true (r : List Char) (h : dotTail r = true) :
    ∃ t, r = '.' :: t ∧ t ≠ [] ∧ ∀ c ∈ t, c ≠ '\n' := by
  unfold dotTail at h
  split at h
  · next t =>
    refine ⟨t, rfl, ?_, ?_⟩
    · intro ht
      subst ht
      simp at h
    · intro c hc
      have := (List.all_eq_true.mp (Bool.and_elim_right h)) c hc
      simpa using this
  · exact absurd h (by simp)

theorem densityTail_some (l r : List Char) (h : densityTail l = some r) :
    ∃ ds x, l = '@' :: ds ++ x :: r ∧ ds ≠ [] ∧
      (∀ c ∈ ds, Char.isDigit c = true) ∧ (x = 'x' ∨ x = 'X') := by
  unfold densityTail at h
  split at h
  · next rest =>
    by_cases he : (runWhile Char.isDigit rest).1.isEmpty
    · simp [he] at h
    · simp only [he, if_false, Bool.false_eq_true] at h
      split at h
      · next r' heq =>
        cases h
        refine ⟨(runWhile Char.isDigit rest).1, 'x', ?_, ?_,
          runWhile_fst_all _ _, Or.inl rfl⟩
        · have hq := runWhile_eq Char.isDigit rest
          rw [heq] at hq
          conv_lhs => rw [hq]
          simp
        · simpa using he
      · next r' heq =>
        cases h
        refine ⟨(runWhile Char.isDigit rest).1, 'X', ?_, ?_,
          runWhile_fst_all _ _, Or.inr rfl⟩
        · have hq := runWhile_eq Char.isDigit rest
          rw [heq] at hq
          conv_lhs => rw [hq]
          simp
        · simpa using he
      · exact absurd h (by simp)
  · exact absurd h (by simp)

theorem append_dot_inj (u v u' v' : List Char) (hu : '.' ∉ u) (hu' : '.' ∉ u')
    (h : u ++ '.' :: v = u' ++ '.' :: v') : u = u' ∧ v = v' := by
  induction u generalizing u' with
  | nil =>
    cases u' with
    | nil => simpa using h
    | cons c u'' =>
      simp only [List.nil_append, List.cons_append, List.cons.injEq] at h
      exact absurd (h.1 ▸ List.mem_cons_self c u'') hu'
  | cons c u'' ih =>
    cases u' with
    | nil =>
      simp only [List.cons_append, List.nil_append, List.cons.injEq] at h
      exact absurd (h.1 ▸ List.mem_cons_self c u'') hu
    | cons c' u''' =>
      simp only [List.cons_append, List.cons.injEq] at h
      have hr := ih u''' (fun hm => hu (List.mem_cons_of_mem c hm))
        (fun hm => hu' (List.mem_cons_of_mem c' hm)) h.2
      exact ⟨by rw [h.1, hr.1], hr.2⟩

theorem endsDensity_of_group (ds : List Char) (x : Char) (hds : ds ≠ [])
    (hall : ∀ c ∈ ds, Char.isDigit c = true) (hx : x = 'x' ∨ x = 'X') :
    endsDensity ('@' :: ds ++ [x]) = true := by
  have hrev : ('@' :: ds ++ [x]).reverse = x :: (ds.reverse ++ ['@']) := by simp
  have hall' : ∀ c ∈ ds.reverse, Char.isDigit c = true := fun c hc =>
    hall c (List.mem_reverse.mp hc)
  have hrun : runWhile Char.isDigit (ds.reverse ++ ['@']) =
      (ds.reverse ++ [], ['@']) := by
    rw [runWhile_append_all _ _ _ hall', runWhile_stop _ '@' [] (by decide)]
  unfold endsDensity
  rw [hrev]
  simp only [hrun, List.append_nil]
  rcases hx with hx | hx <;> subst hx <;> simp [hds]

theorem endsDensity_cons (c : Char) (l : List Char) (h : endsDensity l = true) :
    endsDensity (c :: l) = true := by
  unfold endsDensity at h ⊢
  rcases hrev : l.reverse with _ | ⟨x, rest⟩
  · rw [hrev] at h
    exact absurd h (by simp)
  · rw [hrev] at h
    have hx := Bool.and_elim_left h
    have hq := Bool.and_elim_right h
    simp only [Bool.and_eq_true] at hq
    rcases hh : (runWhile Char.isDigit rest).2 with _ | ⟨a, t⟩
    · rw [hh] at hq
      simp at hq
    · have ha : a = '@' := by
        have := hq.2
        rw [hh] at this
        simpa using this
      subst ha
      have hrun := runWhile_append_stop Char.isDigit rest [c] '@' t hh
      have hrev' : (c :: l).reverse = x :: (rest ++ [c]) := by simp [hrev]
      rw [hrev']
      simp [hrun, hq.1, hx]

theorem matchAt_of_density_none (l : List Char) (h : densityTail l = none) :
    matchAt l = dotTail l := by
  unfold matchAt
  rw [h]

theorem matchAt_of_density_some (l r : List Char) (h : densityTail l = some r) :
    matchAt l = dotTail r := by
  unfold matchAt
  rw [h]

theorem matchAt_false_of_pre (c : Char) (cs : List Char) (hc : c ≠ '.')
    (h : ∀ r, densityTail (c :: cs) = some r → dotTail r = false) :
    matchAt (c :: cs) = false := by
  cases hd : densityTail (c :: cs) with
  | none => rw [matchAt_of_density_none _ hd, dotTail_not_dot c cs hc]
  | some r => rw [matchAt_of_density_some _ _ hd]; exact h r hd

theorem stripNameAux_pre_dot (pre post : List Char) (h1 : '.' ∉ pre)
    (h2 : endsDensity pre = false) (h3 : post ≠ [])
    (h4 : ∀ c ∈ post, c ≠ '\n') :
    stripNameAux (pre ++ '.' :: post) = pre := by
  induction pre with
  | nil =>
    have hm : matchAt ('.' :: post) = true := by
      rw [matchAt_of_density_none _ (densityTail_not_at '.' post (by decide)),
        dotTail_dot]
      cases post with
      | nil => exact absurd rfl h3
      | cons p ps =>
        simp only [List.isEmpty_cons, Bool.not_false, Bool.true_and, List.all_eq_true]
        intro c hc
        simpa using h4 c hc
    simp [stripNameAux, hm]
  | cons c pre' ih =>
    have hcdot : c ≠ '.' := fun h => h1 (h ▸ List.mem_cons_self c pre')
    have h1' : '.' ∉ pre' := fun hm => h1 (List.mem_cons_of_mem c hm)
    have h2' : endsDensity pre' = false := by
      by_contra hcon
      rw [endsDensity_cons c pre' (by simpa using hcon)] at h2
      simp at h2
    have hm : matchAt (c :: (pre' ++ '.' :: post)) = false := by
      apply matchAt_false_of_pre c _ hcdot
      intro r hden
      by_contra hbad
      have hr : dotTail r = true := by simpa using hbad
      obtain ⟨ds, x, heq, hds, hdig, hx⟩ := densityTail_some _ _ hden
      obtain ⟨t, ht, _, _⟩ := dotTail_true r hr
      subst ht
      have hxdot : x ≠ '.' := by rcases hx with hx | hx <;> subst hx <;> decide
      have hu' : ('.' : Char) ∉ '@' :: ds ++ [x] := by
        intro hmem
        rcases List.mem_cons.mp hmem with hmem | hmem
        · exact absurd hmem.symm (by decide)
        · rcases List.mem_append.mp hmem with hmem | hmem
          · have := hdig '.' hmem
            simp at this
          · rcases List.mem_singleton.mp hmem with hmem
            exact hxdot hmem.symm
      have heq2 : (c :: pre') ++ '.' :: post = ('@' :: ds ++ [x]) ++ '.' :: t := by
        rw [List.cons_append, heq]
        simp
      have hsplit := append_dot_inj (c :: pre') post ('@' :: ds ++ [x]) t h1 hu' heq2
      have hgroup : endsDensity (c :: pre') = true := by
        rw [hsplit.1]
        exact endsDensity_of_group ds x hds hdig hx
      rw [hgroup] at h2
      simp at h2
    rw [List.cons_append, stripNameAux]
    simp only [hm, Bool.false_eq_true, if_false]
    rw [ih h1' h2']

theorem stripNameAux_density (b ds ext : List Char) (hb : '.' ∉ b) (hd1 : ds ≠ [])
    (hd2 : ∀ c ∈ ds, Char.isDigit c = true) (he1 : ext ≠ [])
    (he2 : ∀ c ∈ ext, c ≠ '\n') :
    stripNameAux (b ++ '@' :: (ds ++ 'x' :: '.' :: ext)) = b := by
  induction b with
  | nil =>
    have hrun : runWhile Char.isDigit (ds ++ 'x' :: '.' :: ext) =
        (ds ++ [], 'x' :: '.' :: ext) := by
      rw [runWhile_append_all _ _ _ hd2, runWhile_stop _ 'x' _ (by decide)]
    have hden : densityTail ('@' :: (ds ++ 'x' :: '.' :: ext)) =
        some ('.' :: ext) := by
      unfold densityTail
      simp [hrun, hd1]
    have hm : matchAt ('@' :: (ds ++ 'x' :: '.' :: ext)) = true := by
      rw [matchAt_of_density_some _ _ hden, dotTail_dot]
      cases ext with
      | nil => exact absurd rfl he1
      | cons p ps =>
        simp only [List.isEmpty_cons, Bool.not_false, Bool.true_and, List.all_eq_true]
        intro c hc
        simpa using he2 c hc
    simp [stripNameAux, hm]
  | cons c b' ih =>
    have hcdot : c ≠ '.' := fun h => hb (h ▸ List.mem_cons_self c b')
    have hb' : '.' ∉ b' := fun hm => hb (List.mem_cons_of_mem c hm)
    have hm : matchAt (c :: (b' ++ '@' :: (ds ++ 'x' :: '.' :: ext))) = false := by
      apply matchAt_false_of_pre c _ hcdot
      intro r hden
      by_contra hbad
      have hr : dotTail r = true := by simpa using hbad
      obtain ⟨ds', x', heq, hds', hdig', hx'⟩ := densityTail_some _ _ hden
      obtain ⟨t, ht, _, _⟩ := dotTail_true r hr
      subst ht
      have hxdot : x' ≠ '.' := by rcases hx' with hx' | hx' <;> subst hx' <;> decide
      have hu : ('.' : Char) ∉ (c :: b') ++ '@' :: ds ++ ['x'] := by
        intro hmem
        rcases List.mem_append.mp hmem with hmem | hmem
        · rcases List.mem_append.mp hmem with hmem | hmem
          · exact hb hmem
          · rcases List.mem_cons.mp hmem with hmem | hmem
            · exact absurd hmem.symm (by decide)
            · have := hd2 '.' hmem
              simp at this
        · simp at hmem
      have hu' : ('.' : Char) ∉ '@' :: ds' ++ [x'] := by
        intro hmem
        rcases List.mem_cons.mp hmem with hmem | hmem
        · exact absurd hmem.symm (by decide)
        · rcases List.mem_append.mp hmem with hmem | hmem
          · have := hdig' '.' hmem
            simp at this
          · rcases List.mem_singleton.mp hmem with hmem
            exact hxdot hmem.symm
      have heq2 : ((c :: b') ++ '@' :: ds ++ ['x']) ++ '.' :: ext =
          ('@' :: ds' ++ [x']) ++ '.' :: t := by
        have hl : ((c :: b') ++ '@' :: ds ++ ['x']) ++ '.' :: ext =
            c :: (b' ++ '@' :: (ds ++ 'x' :: '.' :: ext)) := by simp
        have hr2 : ('@' :: ds' ++ [x']) ++ '.' :: t =
            ('@' :: ds') ++ x' :: '.' :: t := by simp
        rw [hl, hr2, heq]
      have hsplit := append_dot_inj _ _ _ _ hu hu' heq2
      have htail : b' ++ '@' :: ds ++ ['x'] = ds' ++ [x'] := by
        have := hsplit.1
        rw [List.cons_append, List.cons_append] at this
        exact (List.cons.injEq _ _ _ _ ▸ this : _ ∧ _).2
      have hat : ('@' : Char) ∈ ds' ++ [x'] := by
        rw [← htail]
        simp
      rcases List.mem_append.mp hat with hmem | hmem
      · have := hdig' '@' hmem
        simp at this
      · rcases List.mem_singleton.mp hmem with hmem
        rcases hx' with hx' | hx' <;> rw [hx'] at hmem <;> simp at hmem
    rw [List.cons_append, stripNameAux]
    simp only [hm, Bool.false_eq_true, if_false]
    rw [ih hb']

theorem takeWhile_all (p : Char → Bool) (m : List Char)
    (h : ∀ c ∈ m, p c = true) : m.takeWhile p = m := by
  induction m with
  | nil => rfl
  | cons c cs ih =>
    rw [List.takeWhile_cons, if_pos (h c (List.mem_cons_self c cs)),
      ih (fun d hd => h d (List.mem_cons_of_mem c hd))]

theorem takeWhile_append_stop (p : Char → Bool) (a b : List Char) (c0 : Char)
    (ha : ∀ c ∈ a, p c = true) (hc0 : p c0 = false) :
    (a ++ c0 :: b).takeWhile p = a := by
  induction a with
  | nil => simp [List.takeWhile_cons, hc0]
  | cons c cs ih =>
    rw [List.cons_append, List.takeWhile_cons, if_pos (ha c (List.mem_cons_self c cs)),
      ih (fun d hd => ha d (List.mem_cons_of_mem c hd))]

theorem basenameData_no_slash (l : List Char) (h : '/' ∉ l) : basenameData l = l := by
  unfold basenameData
  rw [takeWhile_all _ _ (fun c hc => by
    simp only [bne_iff_ne, ne_eq, decide_eq_true_eq]
    intro he
    exact h (he ▸ List.mem_reverse.mp hc)), List.reverse_reverse]

theorem afterLastData_append (b p : List Char) (hp : '_' ∉ p) :
    afterLastData (b ++ '_' :: p) = p := by
  unfold afterLastData
  have hrev : (b ++ '_' :: p).reverse = p.reverse ++ '_' :: b.reverse := by simp
  rw [hrev, takeWhile_append_stop _ _ _ '_' (fun c hc => by
    simp only [bne_iff_ne, ne_eq, decide_eq_true_eq]
    intro he
    exact hp (he ▸ List.mem_reverse.mp hc)) (by decide), List.reverse_reverse]

theorem containsSubData_cons_false (pat : List Char) (c : Char) (cs : List Char)
    (h : containsSubData pat (c :: cs) = false) :
    pat.isPrefixOf (c :: cs) = false ∧ containsSubData pat cs = false := by
  unfold containsSubData at h
  exact ⟨Bool.or_eq_false_iff.mp h |>.1, Bool.or_eq_false_iff.mp h |>.2⟩

theorem containsSubData_of_leading (pat l : List Char) (h : pat <+: l) :
    containsSubData pat l = true := by
  cases l with
  | nil =>
    unfold containsSubData
    rw [List.isPrefixOf_iff_prefix.mpr h]
  | cons c cs =>
    unfold containsSubData
    rw [List.isPrefixOf_iff_prefix.mpr h]
    rfl

theorem containsSubData_of_infix (pat l : List Char) (h : pat <:+: l) :
    containsSubData pat l = true := by
  obtain ⟨u, v, huv⟩ := h
  induction u generalizing l with
  | nil =>
    subst huv
    exact containsSubData_of_leading pat (pat ++ v) (List.prefix_append pat v)
  | cons c u' ih =>
    subst huv
    have hshape : ((c :: u') ++ pat) ++ v = c :: ((u' ++ pat) ++ v) := by simp
    rw [hshape]
    unfold containsSubData
    rw [ih ((u' ++ pat) ++ v) rfl]
    simp

theorem replaceFirstData_boundary (b p : List Char) (hp : p ≠ []) (hup : '_' ∉ p)
    (hocc : containsSubData p b = false) :
    replaceFirstData p (b ++ '_' :: p) = b ++ ['_'] := by
  induction b with
  | nil =>
    cases p with
    | nil => exact absurd rfl hp
    | cons a as =>
      have ha : a ≠ '_' := fun he => hup (he ▸ List.mem_cons_self a as)
      show replaceFirstData (a :: as) ('_' :: a :: as) = ['_']
      have hpre : (a :: as).isPrefixOf ('_' :: a :: as) = false := by
        simp only [List.isPrefixOf, Bool.and_eq_false_iff]
        left
        simpa using ha
      unfold replaceFirstData
      rw [hpre]
      simp only [Bool.false_eq_true, if_false]
      unfold replaceFirstData
      rw [List.isPrefixOf_iff_prefix.mpr (List.prefix_refl (a :: as))]
      simp
  | cons c b' ih =>
    have hsp := containsSubData_cons_false p c b' hocc
    have hnp : p.isPrefixOf ((c :: b') ++ '_' :: p) = false := by
      by_contra hcon
      have hpre : p <+: (c :: b') ++ '_' :: p := by simpa using hcon
      obtain ⟨t, ht⟩ := hpre
      by_cases hlen : p.length ≤ (c :: b').length
      · have h1 : p = ((c :: b') ++ '_' :: p).take p.length := by
          rw [← ht, List.take_left]
        rw [List.take_append_eq_append_take, Nat.sub_eq_zero_of_le hlen,
          List.take_zero, List.append_nil] at h1
        have hpcb : p <+: c :: b' := by
          rw [h1]
          exact List.take_prefix _ _
        rw [containsSubData_of_leading p (c :: b') hpcb] at hocc
        cases hocc
      · push_neg at hlen
        have h1 : p = ((c :: b') ++ '_' :: p).take p.length := by
          rw [← ht, List.take_left]
        rw [List.take_append_eq_append_take,
          List.take_of_length_le (le_of_lt hlen)] at h1
        have hk : p.length - (c :: b').length ≠ 0 := by omega
        obtain ⟨m, hm⟩ := Nat.exists_eq_succ_of_ne_zero hk
        rw [hm, List.take_succ_cons] at h1
        have : '_' ∈ p := by
          rw [h1]
          exact List.mem_append_right _ (List.mem_cons_self _ _)
        exact hup this
    rw [List.cons_append]
    unfold replaceFirstData
    rw [show p.isPrefixOf (c :: (b' ++ '_' :: p)) = false from hnp]
    simp only [Bool.false_eq_true, if_false]
    rw [ih hsp.2]
    rfl

theorem endsDensity_append_false (b p' : List Char) (hp : p' ≠ [])
    (hat : '@' ∉ p') : endsDensity (b ++ '_' :: p') = false := by
  rcases hrev : p'.reverse with _ | ⟨c, t⟩
  · exact absurd (by simpa using congrArg List.reverse hrev) hp
  · have hrev2 : (b ++ '_' :: p').reverse = c :: (t ++ '_' :: b.reverse) := by
      simp [hrev]
    have htp : ∀ a ∈ t, a ∈ p' := by
      intro a ha
      have : a ∈ p'.reverse := by rw [hrev]; exact List.mem_cons_of_mem c ha
      exact List.mem_reverse.mp this
    unfold endsDensity
    rw [hrev2]
    rcases hsnd : (runWhile Char.isDigit t).2 with _ | ⟨a, t₂⟩
    · have hall : ∀ a ∈ t, Char.isDigit a = true := by
        intro a ha
        have hq := runWhile_eq Char.isDigit t
        rw [hsnd, List.append_nil] at hq
        rw [hq] at ha
        exact runWhile_fst_all Char.isDigit t a ha
      have hrun : runWhile Char.isDigit (t ++ '_' :: b.reverse) =
          (t ++ [], '_' :: b.reverse) := by
        rw [runWhile_append_all _ _ _ hall, runWhile_stop _ '_' _ (by decide)]
      simp [hrun]
    · have hrun := runWhile_append_stop Char.isDigit t ('_' :: b.reverse) a t₂ hsnd
      have hmem : a ∈ t := by
        have hsub := (runWhile_snd_suffix Char.isDigit t).subset
        rw [hsnd] at hsub
        exact hsub (List.mem_cons_self a t₂)
      have hane : a ≠ '@' := fun he => hat (he ▸ htp a hmem)
      simp [hrun, hane]

theorem stripName_pseudo_shape (b p ext : String)
    (hb1 : '.' ∉ b.data) (hb2 : '/' ∉ b.data)
    (hp0 : p ≠ "") (hp2 : '@' ∉ p.data) (hp3 : '.' ∉ p.data) (hp4 : '/' ∉ p.data)
    (he1 : ext ≠ "") (he2 : '\n' ∉ ext.data) (he3 : '/' ∉ ext.data) :
    stripName (basename (b ++ "_" ++ p ++ "." ++ ext)) = b ++ "_" ++ p := by
  have hpne : p.data ≠ [] := fun h => hp0 (String.ext (by rw [h]))
  have hene : ext.data ≠ [] := fun h => he1 (String.ext (by rw [h]))
  have hdata : (b ++ "_" ++ p ++ "." ++ ext).data =
      (b.data ++ '_' :: p.data) ++ '.' :: ext.data := by
    simp [String.data_append]
  have hnoslash : '/' ∉ (b ++ "_" ++ p ++ "." ++ ext).data := by
    rw [hdata]
    intro hm
    rcases List.mem_append.mp hm with hm | hm
    · rcases List.mem_append.mp hm with hm | hm
      · exact hb2 hm
      · rcases List.mem_cons.mp hm with hm | hm
        · exact absurd hm (by decide)
        · exact hp4 hm
    · rcases List.mem_cons.mp hm with hm | hm
      · exact absurd hm (by decide)
      · exact he3 hm
  have hpre_dot : ('.' : Char) ∉ b.data ++ '_' :: p.data := by
    intro hm
    rcases List.mem_append.mp hm with hm | hm
    · exact hb1 hm
    · rcases List.mem_cons.mp hm with hm | hm
      · exact absurd hm (by decide)
      · exact hp3 hm
  unfold stripName basename
  rw [show (String.mk (basenameData (b ++ "_" ++ p ++ "." ++ ext).data)).data =
      basenameData (b ++ "_" ++ p ++ "." ++ ext).data from rfl,
    basenameData_no_slash _ hnoslash, hdata,
    stripNameAux_pre_dot _ _ hpre_dot
      (endsDensity_append_false b.data p.data hpne hp2) hene
      (fun c hc he => he2 (he ▸ hc))]
  apply String.ext
  simp [String.data_append]

theorem stripName_density_shape (b ds ext : String)
    (hb1 : '.' ∉ b.data) (hb2 : '/' ∉ b.data)
    (hd1 : ds.data ≠ []) (hd2 : ∀ c ∈ ds.data, Char.isDigit c = true)
    (hd3 : '/' ∉ ds.data)
    (he1 : ext ≠ "") (he2 : '\n' ∉ ext.data) (he3 : '/' ∉ ext.data) :
    stripName (basename (b ++ "@" ++ ds ++ "x." ++ ext)) = b := by
  have hene : ext.data ≠ [] := fun h => he1 (String.ext (by rw [h]))
  have hdata : (b ++ "@" ++ ds ++ "x." ++ ext).data =
      b.data ++ '@' :: (ds.data ++ 'x' :: '.' :: ext.data) := by
    simp [String.data_append]
  have hnoslash : '/' ∉ (b ++ "@" ++ ds ++ "x." ++ ext).data := by
    rw [hdata]
    intro hm
    rcases List.mem_append.mp hm with hm | hm
    · exact hb2 hm
    · rcases List.mem_cons.mp hm with hm | hm
      · exact absurd hm (by decide)
      · rcases List.mem_append.mp hm with hm | hm
        · exact hd3 hm
        · rcases List.mem_cons.mp hm with hm | hm
          · exact absurd hm (by decide)
          · rcases List.mem_cons.mp hm with hm | hm
            · exact absurd hm (by decide)
            · exact he3 hm
  unfold stripName basename
  rw [show (String.mk (basenameData (b ++ "@" ++ ds ++ "x." ++ ext).data)).data =
      basenameData (b ++ "@" ++ ds ++ "x." ++ ext).data from rfl,
    basenameData_no_slash _ hnoslash, hdata,
    stripNameAux_density b.data ds.data ext.data hb1 hd1 hd2 hene
      (fun c hc he => he2 (he ▸ hc))]

theorem getSelector_of_pseudo (file b p : String)
    (hstrip : stripName (basename file) = b ++ "_" ++ p)
    (hp0 : p ≠ "") (hp1 : '_' ∉ p.data)
    (hocc : containsSubData p.data b.data = false) :
    getSelector file = sixClause (b ++ "_") p := by
  have hpne : p.data ≠ [] := fun h => hp0 (String.ext (by rw [h]))
  have hdata : (b ++ "_" ++ p).data = b.data ++ '_' :: p.data := by
    simp [String.data_append]
  have hcontains : (stripName (basename file)).data.contains '_' = true := by
    rw [hstrip, hdata]
    simp
  have hpseudo : afterLastUnderscore (stripName (basename file)) = p := by
    rw [hstrip]
    unfold afterLastUnderscore
    rw [hdata, afterLastData_append b.data p.data hp1]
  have hbase : replaceFirst (stripName (basename file)) p = b ++ "_" := by
    rw [hstrip]
    unfold replaceFirst
    rw [hdata, replaceFirstData_boundary b.data p.data hpne hp1 hocc]
    apply String.ext
    simp [String.data_append]
  have hbne : b ++ "_" ≠ "" := by
    intro h
    have h2 : (b ++ "_").data = [] := by rw [h]
    rw [String.data_append] at h2
    simp at h2
  simp only [getSelector]
  rw [hcontains, hpseudo, hbase]
  simp only [if_true]
  rw [if_pos ⟨hbne, hp0⟩]

/-- Claim C1 (amended): for a basename of the shape `b_p.ext` (underscore
present after stripping), the parser takes pseudoState = the text after the
last underscore, but base = the name with the first occurrence of pseudoState
removed — which, when pseudoState occurs nowhere earlier, is the text before
the last underscore *with the underscore retained* — and the six selector
clauses are joined by a comma and a newline.  In particular
`button_hover.png` yields `.button_-hover,\na:hover .button_,...`, not the
spec's `.button-hover, a:hover .button, ...`. -/
theorem c1_amended :
    (∀ b p : String, '_' ∉ p.data →
      afterLastUnderscore (b ++ "_" ++ p) = p) ∧
    (∀ b p : String, p ≠ "" → '_' ∉ p.data →
      containsSubData p.data b.data = false →
      replaceFirst (b ++ "_" ++ p) p = b ++ "_") ∧
    (∀ b p ext : String,
      '.' ∉ b.data → '/' ∉ b.data →
      p ≠ "" → '_' ∉ p.data → '@' ∉ p.data → '.' ∉ p.data → '/' ∉ p.data →
      containsSubData p.data b.data = false →
      ext ≠ "" → '\n' ∉ ext.data → '/' ∉ ext.data →
      getSelector (b ++ "_" ++ p ++ "." ++ ext) = sixClause (b ++ "_") p) ∧
    getSelector "button_hover.png" =
      ".button_-hover,\na:hover .button_,\nbutton:hover .button_,\na.hover .button_,\nbutton.hover .button_,\n.button_.hover" := by
  refine ⟨?_, ?_, ?_, by decide⟩
  · intro b p h
    have hdata : (b ++ "_" ++ p).data = b.data ++ '_' :: p.data := by
      simp [String.data_append]
    unfold afterLastUnderscore
    rw [hdata, afterLastData_append b.data p.data h]
  · intro b p hp0 hp1 hocc
    have hpne : p.data ≠ [] := fun h => hp0 (String.ext (by rw [h]))
    have hdata : (b ++ "_" ++ p).data = b.data ++ '_' :: p.data := by
      simp [String.data_append]
    unfold replaceFirst
    rw [hdata, replaceFirstData_boundary b.data p.data hpne hp1 hocc]
    apply String.ext
    simp [String.data_append]
  · intro b p ext hb1 hb2 hp0 hp1 hp2 hp3 hp4 hocc he1 he2 he3
    exact getSelector_of_pseudo _ b p
      (stripName_pseudo_shape b p ext hb1 hb2 hp0 hp2 hp3 hp4 he1 he2 he3)
      hp0 hp1 hocc

/-- Claim C1's counterexample: on `button_hover.png` the code emits
`.button_-hover,\na:hover .button_,...` — base keeps the underscore and the
clauses are separated by commas and newlines — which differs from the
selector the claim states. -/
theorem c1_counterexample :
    getSelector "button_hover.png" =
      ".button_-hover,\na:hover .button_,\nbutton:hover .button_,\na.hover .button_,\nbutton.hover .button_,\n.button_.hover" ∧
    getSelector "button_hover.png" ≠
      ".button-hover, a:hover .button, button:hover .button, a.hover .button, button.hover .button, .button.hover" := by
  constructor <;> decide

/-- Witness for claim C1's amended theorem at b = `button`, p = `hover`,
ext = `png`. -/
theorem c1_witness :
    afterLastUnderscore ("button" ++ "_" ++ "hover") = "hover" ∧
    replaceFirst ("button" ++ "_" ++ "hover") "hover" = "button" ++ "_" ∧
    getSelector ("button" ++ "_" ++ "hover" ++ "." ++ "png") =
      sixClause ("button" ++ "_") "hover" :=
  ⟨c1_amended.1 "button" "hover" (by decide),
   c1_amended.2.1 "button" "hover" (by decide) (by decide) (by decide),
   c1_amended.2.2.1 "button" "hover" "png" (by decide) (by decide) (by decide)
     (by decide) (by decide) (by decide) (by decide) (by decide) (by decide)
     (by decide) (by decide)⟩

theorem not_mem_append (c : Char) (u v : List Char) (hu : c ∉ u) (hv : c ∉ v) :
    c ∉ u ++ v := fun hm => (List.mem_append.mp hm).elim hu hv

theorem splitChar_no_sep (sep : Char) (a : List Char) (h : sep ∉ a) :
    splitChar sep a = [a] := by
  induction a with
  | nil => rfl
  | cons c cs ih =>
    have hc : ¬ c = sep := fun he => h (he ▸ List.mem_cons_self c cs)
    have hcs : sep ∉ cs := fun hm => h (List.mem_cons_of_mem c hm)
    simp only [splitChar, hc, if_false, ih hcs]

theorem splitChar_append (sep : Char) (a rest : List Char) (h : sep ∉ a) :
    splitChar sep (a ++ sep :: rest) = a :: splitChar sep rest := by
  induction a with
  | nil => simp [splitChar]
  | cons c cs ih =>
    have hc : ¬ c = sep := fun he => h (he ▸ List.mem_cons_self c cs)
    have hcs : sep ∉ cs := fun hm => h (List.mem_cons_of_mem c hm)
    rw [List.cons_append]
    simp only [splitChar, hc, if_false, ih hcs]

/-- Claim C2 (amended): for a clean `b_p.ext` name the selector consists of
exactly six comma-separated clauses, each containing both the `b` token and
the `p` token as substrings; the clauses follow the patterns
`.<b>_-<p>`, `a:<p> .<b>_`, `button:<p> .<b>_`, `a.<p> .<b>_`,
`button.<p> .<b>_`, `.<b>_.<p>` — the base position carries the retained
underscore (and a leading newline after each comma), not the bare `<b>` of
the claim's patterns. -/
theorem c2_amended :
    ∀ b p ext : String,
      '.' ∉ b.data → '/' ∉ b.data → ',' ∉ b.data →
      p ≠ "" → '_' ∉ p.data → '@' ∉ p.data → '.' ∉ p.data → '/' ∉ p.data →
      ',' ∉ p.data →
      containsSubData p.data b.data = false →
      ext ≠ "" → '\n' ∉ ext.data → '/' ∉ ext.data →
      splitChar ',' (getSelector (b ++ "_" ++ p ++ "." ++ ext)).data =
        [("." ++ b ++ "_-" ++ p).data,
         ("\na:" ++ p ++ " ." ++ b ++ "_").data,
         ("\nbutton:" ++ p ++ " ." ++ b ++ "_").data,
         ("\na." ++ p ++ " ." ++ b ++ "_").data,
         ("\nbutton." ++ p ++ " ." ++ b ++ "_").data,
         ("\n." ++ b ++ "_." ++ p).data] ∧
      (splitChar ',' (getSelector (b ++ "_" ++ p ++ "." ++ ext)).data).length = 6 ∧
      ∀ cl ∈ splitChar ',' (getSelector (b ++ "_" ++ p ++ "." ++ ext)).data,
        containsSubData b.data cl = true ∧ containsSubData p.data cl = true := by
  intro b p ext hb1 hb2 hb3 hp0 hp1 hp2 hp3 hp4 hp5 hocc he1 he2 he3
  have hsel : getSelector (b ++ "_" ++ p ++ "." ++ ext) = sixClause (b ++ "_") p :=
    getSelector_of_pseudo _ b p
      (stripName_pseudo_shape b p ext hb1 hb2 hp0 hp2 hp3 hp4 he1 he2 he3)
      hp0 hp1 hocc
  have hdata : (sixClause (b ++ "_") p).data =
      ("." ++ b ++ "_-" ++ p).data ++ ',' ::
        (("\na:" ++ p ++ " ." ++ b ++ "_").data ++ ',' ::
          (("\nbutton:" ++ p ++ " ." ++ b ++ "_").data ++ ',' ::
            (("\na." ++ p ++ " ." ++ b ++ "_").data ++ ',' ::
              (("\nbutton." ++ p ++ " ." ++ b ++ "_").data ++ ',' ::
                ("\n." ++ b ++ "_." ++ p).data)))) := by
    simp [sixClause, String.data_append]
  have hc1 : (',' : Char) ∉ ("." ++ b ++ "_-" ++ p).data := by
    simp only [String.data_append]
    exact not_mem_append _ _ _
      (not_mem_append _ _ _ (not_mem_append _ _ _ (by decide) hb3) (by decide)) hp5
  have hc2 : (',' : Char) ∉ ("\na:" ++ p ++ " ." ++ b ++ "_").data := by
    simp only [String.data_append]
    exact not_mem_append _ _ _ (not_mem_append _ _ _
      (not_mem_append _ _ _ (not_mem_append _ _ _ (by decide) hp5) (by decide)) hb3)
      (by decide)
  have hc3 : (',' : Char) ∉ ("\nbutton:" ++ p ++ " ." ++ b ++ "_").data := by
    simp only [String.data_append]
    exact not_mem_append _ _ _ (not_mem_append _ _ _
      (not_mem_append _ _ _ (not_mem_append _ _ _ (by decide) hp5) (by decide)) hb3)
      (by decide)
  have hc4 : (',' : Char) ∉ ("\na." ++ p ++ " ." ++ b ++ "_").data := by
    simp only [String.data_append]
    exact not_mem_append _ _ _ (not_mem_append _ _ _
      (not_mem_append _ _ _ (not_mem_append _ _ _ (by decide) hp5) (by decide)) hb3)
      (by decide)
  have hc5 : (',' : Char) ∉ ("\nbutton." ++ p ++ " ." ++ b ++ "_").data := by
    simp only [String.data_append]
    exact not_mem_append _ _ _ (not_mem_append _ _ _
      (not_mem_append _ _ _ (not_mem_append _ _ _ (by decide) hp5) (by decide)) hb3)
      (by decide)
  have hc6 : (',' : Char) ∉ ("\n." ++ b ++ "_." ++ p).data := by
    simp only [String.data_append]
    exact not_mem_append _ _ _
      (not_mem_append _ _ _ (not_mem_append _ _ _ (by decide) hb3) (by decide)) hp5
  have hsplit : splitChar ',' (getSelector (b ++ "_" ++ p ++ "." ++ ext)).data =
      [("." ++ b ++ "_-" ++ p).data,
       ("\na:" ++ p ++ " ." ++ b ++ "_").data,
       ("\nbutton:" ++ p ++ " ." ++ b ++ "_").data,
       ("\na." ++ p ++ " ." ++ b ++ "_").data,
       ("\nbutton." ++ p ++ " ." ++ b ++ "_").data,
       ("\n." ++ b ++ "_." ++ p).data] := by
    rw [hsel, hdata, splitChar_append _ _ _ hc1, splitChar_append _ _ _ hc2,
      splitChar_append _ _ _ hc3, splitChar_append _ _ _ hc4,
      splitChar_append _ _ _ hc5, splitChar_no_sep _ _ hc6]
  refine ⟨hsplit, by rw [hsplit]; rfl, ?_⟩
  intro cl hcl
  rw [hsplit] at hcl
  have hbin : ∀ u v : String, containsSubData b.data (u ++ b ++ v).data = true :=
    fun u v => containsSubData_of_infix _ _
      ⟨u.data, v.data, by simp [String.data_append]⟩
  have hpin : ∀ u v : String, containsSubData p.data (u ++ p ++ v).data = true :=
    fun u v => containsSubData_of_infix _ _
      ⟨u.data, v.data, by simp [String.data_append]⟩
  simp only [List.mem_cons, List.not_mem_nil, or_false] at hcl
  rcases hcl with hcl | hcl | hcl | hcl | hcl | hcl
  · subst hcl
    constructor
    · have := hbin "." ("_-" ++ p)
      simpa [String.data_append, List.append_assoc] using this
    · have := hpin ("." ++ b ++ "_-") ""
      simpa [String.data_append, List.append_assoc] using this
  · subst hcl
    constructor
    · have := hbin ("\na:" ++ p ++ " .") "_"
      simpa [String.data_append, List.append_assoc] using this
    · have := hpin "\na:" (" ." ++ b ++ "_")
      simpa [String.data_append, List.append_assoc] using this
  · subst hcl
    constructor
    · have := hbin ("\nbutton:" ++ p ++ " .") "_"
      simpa [String.data_append, List.append_assoc] using this
    · have := hpin "\nbutton:" (" ." ++ b ++ "_")
      simpa [String.data_append, List.append_assoc] using this
  · subst hcl
    constructor
    · have := hbin ("\na." ++ p ++ " .") "_"
      simpa [String.data_append, List.append_assoc] using this
    · have := hpin "\na." (" ." ++ b ++ "_")
      simpa [String.data_append, List.append_assoc] using this
  · subst hcl
    constructor
    · have := hbin ("\nbutton." ++ p ++ " .") "_"
      simpa [String.data_append, List.append_assoc] using this
    · have := hpin "\nbutton." (" ." ++ b ++ "_")
      simpa [String.data_append, List.append_assoc] using this
  · subst hcl
    constructor
    · have := hbin "\n." ("_." ++ p)
      simpa [String.data_append, List.append_assoc] using this
    · have := hpin ("\n." ++ b ++ "_.") ""
      simpa [String.data_append, List.append_assoc] using this

/-- Claim C2's counterexample: on `button_hover.png` the first
comma-separated clause is `.button_-hover`, not the claimed pattern
`.button-hover`. -/
theorem c2_counterexample :
    (splitChar ',' (getSelector "button_hover.png").data).head? =
      some ".button_-hover".data ∧
    ".button_-hover".data ≠ ".button-hover".data := by
  constructor <;> decide

/-- Witness for claim C2's amended theorem at b = `button`, p = `hover`,
ext = `png`. -/
theorem c2_witness :
    splitChar ',' (getSelector ("button" ++ "_" ++ "hover" ++ "." ++ "png")).data =
      [("." ++ "button" ++ "_-" ++ "hover").data,
       ("\na:" ++ "hover" ++ " ." ++ "button" ++ "_").data,
       ("\nbutton:" ++ "hover" ++ " ." ++ "button" ++ "_").data,
       ("\na." ++ "hover" ++ " ." ++ "button" ++ "_").data,
       ("\nbutton." ++ "hover" ++ " ." ++ "button" ++ "_").data,
       ("\n." ++ "button" ++ "_." ++ "hover").data] ∧
    (splitChar ','
      (getSelector ("button" ++ "_" ++ "hover" ++ "." ++ "png")).data).length = 6 ∧
    ∀ cl ∈ splitChar ','
        (getSelector ("button" ++ "_" ++ "hover" ++ "." ++ "png")).data,
      containsSubData "button".data cl = true ∧
      containsSubData "hover".data cl = true :=
  c2_amended "button" "hover" "png" (by decide) (by decide) (by decide) (by decide)
    (by decide) (by decide) (by decide) (by decide) (by decide) (by decide)
    (by decide) (by decide) (by decide)

/-- Claim C10 (amended): the selector builder strips everything from the
first dot onward together with a density suffix `@<digits>x` immediately
preceding that dot when one is present; for a name whose pre-dot text does
not end in a density suffix — such as `my.icon.png` — the selector is derived
from the text before the first dot alone. -/
theorem c10_amended :
    (∀ pre post : String, '.' ∉ pre.data → endsDensity pre.data = false →
      post ≠ "" → '\n' ∉ post.data →
      stripName (pre ++ "." ++ post) = pre) ∧
    (∀ b ds post : String, '.' ∉ b.data → ds.data ≠ [] →
      (∀ c ∈ ds.data, Char.isDigit c = true) → post ≠ "" → '\n' ∉ post.data →
      stripName (b ++ "@" ++ ds ++ "x." ++ post) = b) ∧
    stripName "my.icon.png" = "my" ∧ getSelector "my.icon.png" = ".my" := by
  refine ⟨?_, ?_, by decide, by decide⟩
  · intro pre post h1 h2 h3 h4
    have hpne : post.data ≠ [] := fun h => h3 (String.ext (by rw [h]))
    have hdata : (pre ++ "." ++ post).data = pre.data ++ '.' :: post.data := by
      simp [String.data_append]
    unfold stripName
    rw [hdata, stripNameAux_pre_dot pre.data post.data h1 h2 hpne
      (fun c hc he => h4 (he ▸ hc))]
  · intro b ds post hb hd1 hd2 h3 h4
    have hpne : post.data ≠ [] := fun h => h3 (String.ext (by rw [h]))
    have hdata : (b ++ "@" ++ ds ++ "x." ++ post).data =
        b.data ++ '@' :: (ds.data ++ 'x' :: '.' :: post.data) := by
      simp [String.data_append]
    unfold stripName
    rw [hdata, stripNameAux_density b.data ds.data post.data hb hd1 hd2 hpne
      (fun c hc he => h4 (he ▸ hc))]

/-- Claim C10's counterexample: the basename `a@2x.b.png` contains two dots,
and the text before the first dot is `a@2x`; but the code strips the density
suffix `@2x` as well, leaving `a`, so the claim's "everything from the first
dot onward" does not describe the stripped text. -/
theorem c10_counterexample :
    stripName "a@2x.b.png" = "a" ∧ stripName "a@2x.b.png" ≠ "a@2x" ∧
    getSelector "a@2x.b.png" = ".a" := by
  refine ⟨by decide, by decide, by decide⟩

/-- Witness for claim C10's amended theorem at `my` + `icon.png` and at
`a` + `@2x.` + `b.png`. -/
theorem c10_witness :
    stripName ("my" ++ "." ++ "icon.png") = "my" ∧
    stripName ("a" ++ "@" ++ "2" ++ "x." ++ "b.png") = "a" :=
  ⟨c10_amended.1 "my" "icon.png" (by decide) (by decide) (by decide) (by decide),
   c10_amended.2.1 "a" "2" "b.png" (by decide) (by decide) (by decide)
     (by decide) (by decide)⟩

/-- Claim C7 (amended): a path whose stripped basename is empty — such as
`@2x.png` — raises no error: `kebabCase` of the empty base yields the lone
`.` selector, and the pipeline emits a CSS rule for the asset; every other
asset in the batch still produces exactly the rule it produces on its own
(the two-asset batch below contains the single-asset `circle.png` output
verbatim). -/
theorem c7_amended :
    (∀ file : String, stripName (basename file) = "" → getSelector file = ".") ∧
    processImagesCore jsNumStr [("@2x.png", ⟨2, 2⟩), ("circle.png", ⟨25, 25⟩)]
      "style.css" =
      ".circle \x7b background: url(circle.png) no-repeat 0 0; background-size: 100% 100%; width: 25px; height: 25px; display: inline-block; vertical-align: middle; font-size: 0; \x7d\n\n@media (-webkit-min-device-pixel-ratio: 2), (min-resolution: 192dpi) \x7b\n\t. \x7b background: url(@2x.png) no-repeat 0 0; background-size: 100% 100%; width: 1px; height: 1px; display: inline-block; vertical-align: middle; font-size: 0; \x7d\n\x7d" ∧
    processImagesCore jsNumStr [("circle.png", ⟨25, 25⟩)] "style.css" =
      ".circle \x7b background: url(circle.png) no-repeat 0 0; background-size: 100% 100%; width: 25px; height: 25px; display: inline-block; vertical-align: middle; font-size: 0; \x7d" := by
  have hw1 : jsNumStr (effectiveWidth circleImg) = "25" := by
    have h : effectiveWidth circleImg = 25 := by norm_num [effectiveWidth, circleImg]
    rw [h]
    decide
  have hh1 : jsNumStr (effectiveHeight circleImg) = "25" := by
    have h : effectiveHeight circleImg = 25 := by norm_num [effectiveHeight, circleImg]
    rw [h]
    decide
  have hw2 : jsNumStr (effectiveWidth noBaseImg) = "1" := by
    have h : effectiveWidth noBaseImg = 1 := by norm_num [effectiveWidth, noBaseImg]
    rw [h]
    decide
  have hh2 : jsNumStr (effectiveHeight noBaseImg) = "1" := by
    have h : effectiveHeight noBaseImg = 1 := by norm_num [effectiveHeight, noBaseImg]
    rw [h]
    decide
  refine ⟨?_, ?_, ?_⟩
  · intro file h
    simp only [getSelector, h]
    decide
  · have hprep : prepareImages [("@2x.png", ⟨2, 2⟩), ("circle.png", ⟨25, 25⟩)]
        "style.css" = [(1, [circleImg]), (2, [noBaseImg])] := by decide
    simp only [processImagesCore, hprep, List.map_cons, List.map_nil,
      compileCSS, cssRule, hw1, hh1, hw2, hh2]
    decide
  · have hprep : prepareImages [("circle.png", ⟨25, 25⟩)] "style.css" =
        [(1, [circleImg])] := by decide
    simp only [processImagesCore, hprep, List.map_cons, List.map_nil,
      compileCSS, cssRule, hw1, hh1]
    decide

/-- Claim C7's counterexample: for the batch containing only `@2x.png` the
code reports no error and does emit a rule — with the selector `.` — wrapped
in the density-2 media query; the claimed `ParseError` does not exist in the
program. -/
theorem c7_counterexample :
    getSelector "@2x.png" = "." ∧
    processImagesCore jsNumStr [("@2x.png", ⟨2, 2⟩)] "style.css" =
      "@media (-webkit-min-device-pixel-ratio: 2), (min-resolution: 192dpi) \x7b\n\t. \x7b background: url(@2x.png) no-repeat 0 0; background-size: 100% 100%; width: 1px; height: 1px; display: inline-block; vertical-align: middle; font-size: 0; \x7d\n\x7d" := by
  have hw2 : jsNumStr (effectiveWidth noBaseImg) = "1" := by
    have h : effectiveWidth noBaseImg = 1 := by norm_num [effectiveWidth, noBaseImg]
    rw [h]
    decide
  have hh2 : jsNumStr (effectiveHeight noBaseImg) = "1" := by
    have h : effectiveHeight noBaseImg = 1 := by norm_num [effectiveHeight, noBaseImg]
    rw [h]
    decide
  constructor
  · decide
  · have hprep : prepareImages [("@2x.png", ⟨2, 2⟩)] "style.css" =
        [(2, [noBaseImg])] := by decide
    simp only [processImagesCore, hprep, List.map_cons, List.map_nil,
      compileCSS, cssRule, hw2, hh2]
    decide

/-- Witness for claim C7's amended theorem at the path `@2x.png`, whose
stripped basename is empty. -/
theorem c7_witness :
    stripName (basename "@2x.png") = "" ∧ getSelector "@2x.png" = "." :=
  ⟨by decide, c7_amended.1 "@2x.png" (by decide)⟩

/-- Claim C4 (confirmed): the width and height interpolated into a CSS rule
are exactly the raw supplied dimensions divided by the descriptor's ratio, as
exact rational values — multiplying back by the (nonzero) ratio recovers the
raw dimension, so no rounding or integer truncation occurs — and `cssRule`
passes precisely these quotients to the number renderer.  (JavaScript
numbers are modelled as exact rationals.) -/
theorem c4_exact_scaling (i : Image) (h : i.ratio ≠ 0) :
    effectiveWidth i * (i.ratio : ℚ) = i.size.width ∧
    effectiveHeight i * (i.ratio : ℚ) = i.size.height ∧
    ∀ numStr : ℚ → String, cssRule numStr i =
      i.selector ++ " \x7b background: url(" ++ i.url ++
      ") no-repeat 0 0; background-size: 100% 100%; width: " ++
      numStr (i.size.width / (i.ratio : ℚ)) ++ "px; height: " ++
      numStr (i.size.height / (i.ratio : ℚ)) ++
      "px; display: inline-block; vertical-align: middle; font-size: 0; \x7d" := by
  have hq : (i.ratio : ℚ) ≠ 0 := Nat.cast_ne_zero.mpr h
  exact ⟨div_mul_cancel₀ _ hq, div_mul_cancel₀ _ hq, fun numStr => rfl⟩

/-- Witness for claim C4 at a 25×25 descriptor of ratio 2 (a fractional
effective size, 25/2). -/
theorem c4_witness :
    fracImg.ratio ≠ 0 ∧
    (effectiveWidth fracImg * (fracImg.ratio : ℚ) = fracImg.size.width ∧
     effectiveHeight fracImg * (fracImg.ratio : ℚ) = fracImg.size.height ∧
     ∀ numStr : ℚ → String, cssRule numStr fracImg =
       fracImg.selector ++ " \x7b background: url(" ++ fracImg.url ++
       ") no-repeat 0 0; background-size: 100% 100%; width: " ++
       numStr (fracImg.size.width / (fracImg.ratio : ℚ)) ++ "px; height: " ++
       numStr (fracImg.size.height / (fracImg.ratio : ℚ)) ++
       "px; display: inline-block; vertical-align: middle; font-size: 0; \x7d") :=
  ⟨by decide, c4_exact_scaling fracImg (by decide)⟩

theorem mem_insertImg (x z : Image) (l : List Image) :
    z ∈ insertImg x l ↔ z = x ∨ z ∈ l := by
  induction l with
  | nil => simp [insertImg]
  | cons y ys ih =>
    by_cases h : y.ratio ≤ x.ratio
    · simp only [insertImg, if_pos h, List.mem_cons, ih]
      tauto
    · simp only [insertImg, if_neg h, List.mem_cons]

theorem pairwise_insertImg (x : Image) (l : List Image)
    (hl : l.Pairwise (fun a b => a.ratio ≤ b.ratio)) :
    (insertImg x l).Pairwise (fun a b => a.ratio ≤ b.ratio) := by
  induction l with
  | nil => simp [insertImg]
  | cons y ys ih =>
    rcases List.pairwise_cons.mp hl with ⟨hy, hys⟩
    by_cases h : y.ratio ≤ x.ratio
    · rw [insertImg, if_pos h]
      refine List.pairwise_cons.mpr ⟨?_, ih hys⟩
      intro z hz
      rcases (mem_insertImg x z ys).mp hz with hz | hz
      · exact hz ▸ h
      · exact hy z hz
    · rw [insertImg, if_neg h]
      refine List.pairwise_cons.mpr ⟨?_, hl⟩
      intro z hz
      rcases List.mem_cons.mp hz with hz | hz
      · exact hz ▸ le_of_lt (lt_of_not_le h)
      · exact le_trans (le_of_lt (lt_of_not_le h)) (hy z hz)

theorem filter_insertImg_ne (x : Image) (l : List Image) (p : Image → Bool)
    (hx : p x = false) : (insertImg x l).filter p = l.filter p := by
  induction l with
  | nil => simp [insertImg, hx]
  | cons y ys ih =>
    by_cases h : y.ratio ≤ x.ratio
    · rw [insertImg, if_pos h]
      simp [List.filter_cons, ih]
    · rw [insertImg, if_neg h]
      simp [List.filter_cons, hx]

theorem filter_insertImg_eq (x : Image) (l : List Image) (r : ℕ)
    (hx : x.ratio = r)
    (hl : l.Pairwise (fun a b => a.ratio ≤ b.ratio)) :
    (insertImg x l).filter (fun i => i.ratio == r) =
      l.filter (fun i => i.ratio == r) ++ [x] := by
  induction l with
  | nil => simp [insertImg, hx]
  | cons y ys ih =>
    rcases List.pairwise_cons.mp hl with ⟨hy, hys⟩
    by_cases h : y.ratio ≤ x.ratio
    · rw [insertImg, if_pos h]
      simp only [List.filter_cons, ih hys]
      split
      · simp
      · rfl
    · rw [insertImg, if_neg h]
      have hfnil : (y :: ys).filter (fun i => i.ratio == r) = [] := by
        rw [List.filter_eq_nil_iff]
        intro z hz
        have hzge : y.ratio ≤ z.ratio := by
          rcases List.mem_cons.mp hz with hz | hz
          · exact hz ▸ le_refl _
          · exact hy z hz
        have : r < z.ratio := lt_of_lt_of_le (hx ▸ lt_of_not_le h) hzge
        simp [Nat.ne_of_gt this]
      rw [List.filter_cons, hfnil]
      simp [hx]

theorem sortImages_pairwise (l : List Image) :
    (sortImages l).Pairwise (fun a b => a.ratio ≤ b.ratio) := by
  suffices h : ∀ acc, acc.Pairwise (fun a b => a.ratio ≤ b.ratio) →
      (List.foldl (fun acc x => insertImg x acc) acc l).Pairwise
        (fun a b => a.ratio ≤ b.ratio) from h [] (by simp)
  induction l with
  | nil => intro acc hacc; simpa using hacc
  | cons x xs ih =>
    intro acc hacc
    exact ih (insertImg x acc) (pairwise_insertImg x acc hacc)

theorem sortImages_filter (l : List Image) (r : ℕ) :
    (sortImages l).filter (fun i => i.ratio == r) =
      l.filter (fun i => i.ratio == r) := by
  suffices h : ∀ acc, acc.Pairwise (fun a b => a.ratio ≤ b.ratio) →
      (List.foldl (fun acc x => insertImg x acc) acc l).filter
          (fun i => i.ratio == r) =
        acc.filter (fun i => i.ratio == r) ++ l.filter (fun i => i.ratio == r) by
    have h2 := h [] (by simp)
    simpa using h2
  induction l with
  | nil => intro acc hacc; simp
  | cons x xs ih =>
    intro acc hacc
    rw [List.foldl_cons, ih (insertImg x acc) (pairwise_insertImg x acc hacc)]
    by_cases hx : x.ratio = r
    · rw [filter_insertImg_eq x acc r hx hacc, List.filter_cons]
      simp [hx]
    · rw [filter_insertImg_ne x acc _ (by simp [hx]), List.filter_cons]
      simp [hx]

theorem groupRuns_head_key (x : Image) (xs : List Image) :
    ∃ g rest, groupRuns (x :: xs) = (x.ratio, g) :: rest := by
  rcases hg : groupRuns xs with _ | ⟨⟨r, g⟩, rest⟩
  · exact ⟨[x], [], by simp [groupRuns, hg]⟩
  · by_cases h : x.ratio = r
    · exact ⟨x :: g, rest, by simp [groupRuns, hg, h]⟩
    · exact ⟨[x], (r, g) :: rest, by simp [groupRuns, hg, h]⟩

theorem groupRuns_ne_nil (l : List Image) (h : l ≠ []) : groupRuns l ≠ [] := by
  cases l with
  | nil => exact absurd rfl h
  | cons x xs =>
    obtain ⟨g, rest, hk⟩ := groupRuns_head_key x xs
    rw [hk]
    simp

theorem groupRuns_cons_head (xs : List Image) (r : ℕ) (g : List Image)
    (rest : List (ℕ × List Image)) (hg : groupRuns xs = (r, g) :: rest) :
    ∃ y ys, xs = y :: ys ∧ r = y.ratio := by
  cases xs with
  | nil => simp [groupRuns] at hg
  | cons y ys =>
    obtain ⟨g', rest', hgr⟩ := groupRuns_head_key y ys
    rw [hgr] at hg
    simp only [List.cons.injEq, Prod.mk.injEq] at hg
    exact ⟨y, ys, rfl, hg.1.1.symm⟩

theorem groupRuns_keys (l : List Image)
    (hl : l.Pairwise (fun a b => a.ratio ≤ b.ratio)) :
    ((groupRuns l).map Prod.fst).Chain' (· < ·) := by
  induction l with
  | nil => simp [groupRuns]
  | cons x xs ih =>
    rcases List.pairwise_cons.mp hl with ⟨hx, hxs⟩
    have ihx := ih hxs
    rcases hg : groupRuns xs with _ | ⟨⟨r, g⟩, rest⟩
    · simp [groupRuns, hg]
    · obtain ⟨y, ys, hxs_eq, hr_eq⟩ := groupRuns_cons_head xs r g rest hg
      rw [hg] at ihx
      by_cases h : x.ratio = r
      · have hrw : groupRuns (x :: xs) = (r, x :: g) :: rest := by
          simp [groupRuns, hg, h]
        rw [hrw, List.map_cons]
        simpa using ihx
      · have hrw : groupRuns (x :: xs) = (x.ratio, [x]) :: (r, g) :: rest := by
          simp [groupRuns, hg, h]
        rw [hrw, List.map_cons, List.map_cons]
        rw [List.chain'_cons]
        constructor
        · have hle : x.ratio ≤ y.ratio := hx y (hxs_eq ▸ List.mem_cons_self y ys)
          exact lt_of_le_of_ne (hr_eq ▸ hle) h
        · simpa using ihx

theorem groupRuns_lookup (l : List Image)
    (hl : l.Pairwise (fun a b => a.ratio ≤ b.ratio)) (r' : ℕ) :
    List.lookup r' (groupRuns l) =
      (if (l.filter (fun i => i.ratio == r')).isEmpty then none
       else some (l.filter (fun i => i.ratio == r'))) := by
  induction l with
  | nil => simp [groupRuns]
  | cons x xs ih =>
    rcases List.pairwise_cons.mp hl with ⟨hx, hxs⟩
    have ihr := ih hxs
    rcases hg : groupRuns xs with _ | ⟨⟨r, g⟩, rest⟩
    · have hxs_nil : xs = [] := by
        by_contra hne
        exact groupRuns_ne_nil xs hne hg
      subst hxs_nil
      have hrw : groupRuns [x] = [(x.ratio, [x])] := by simp [groupRuns]
      rw [hrw]
      by_cases h : x.ratio = r'
      · subst h
        simp [List.lookup, List.filter_cons]
      · have h1 : (x.ratio == r') = false := by simp [h]
        have h2 : (r' == x.ratio) = false := by simp [Ne.symm h]
        simp [List.lookup, List.filter_cons, h1, h2]
    · obtain ⟨y, ys, hxs_eq, hr_eq⟩ := groupRuns_cons_head xs r g rest hg
      have hge : ∀ z ∈ xs, r ≤ z.ratio := by
        intro z hz
        rw [hxs_eq] at hz hxs
        rcases List.mem_cons.mp hz with hz | hz
        · exact hr_eq ▸ hz ▸ le_refl _
        · exact hr_eq ▸ (List.pairwise_cons.mp hxs).1 z hz
      rw [hg] at ihr
      by_cases hxr : x.ratio = r
      · have hrw : groupRuns (x :: xs) = (r, x :: g) :: rest := by
          simp [groupRuns, hg, hxr]
        rw [hrw]
        by_cases hr' : r' = r
        · subst hr'
          have hlk : List.lookup r' ((r', g) :: rest) = some g := by
            simp [List.lookup]
          rw [hlk] at ihr
          have hfx : (x.ratio == r') = true := by simp [hxr]
          have hlk2 : List.lookup r' ((r', x :: g) :: rest) = some (x :: g) := by
            simp [List.lookup]
          rw [hlk2, List.filter_cons]
          simp only [hfx, if_true]
          cases hfe : (xs.filter (fun i => i.ratio == r')).isEmpty with
          | true =>
            rw [hfe] at ihr
            simp at ihr
          | false =>
            rw [hfe] at ihr
            simp only [Bool.false_eq_true, if_false] at ihr
            have hgeq := Option.some_injective _ ihr
            simp [hgeq]
        · have hne2 : (r' == r) = false := by simp [hr']
          have hlk : List.lookup r' ((r, x :: g) :: rest) = List.lookup r' rest := by
            simp [List.lookup, hne2]
          have hlk2 : List.lookup r' ((r, g) :: rest) = List.lookup r' rest := by
            simp [List.lookup, hne2]
          rw [hlk2] at ihr
          rw [hlk, ihr, List.filter_cons]
          have hpx : (x.ratio == r') = false := by
            rw [hxr]
            simp [Ne.symm hr']
          simp [hpx]
      · have hrw : groupRuns (x :: xs) = (x.ratio, [x]) :: (r, g) :: rest := by
          simp [groupRuns, hg, hxr]
        rw [hrw]
        have hlt : x.ratio < r := by
          have hle : x.ratio ≤ y.ratio := hx y (hxs_eq ▸ List.mem_cons_self y ys)
          exact lt_of_le_of_ne (hr_eq ▸ hle) hxr
        by_cases hr' : r' = x.ratio
        · subst hr'
          have hfxs : xs.filter (fun i => i.ratio == x.ratio) = [] := by
            rw [List.filter_eq_nil_iff]
            intro z hz
            have : x.ratio < z.ratio := lt_of_lt_of_le hlt (hge z hz)
            simp [Nat.ne_of_gt this]
          have hlk : List.lookup x.ratio ((x.ratio, [x]) :: (r, g) :: rest) =
              some [x] := by
            simp [List.lookup]
          rw [hlk, List.filter_cons, hfxs]
          simp
        · have hne2 : (r' == x.ratio) = false := by simp [hr']
          have hlk : List.lookup r' ((x.ratio, [x]) :: (r, g) :: rest) =
              List.lookup r' ((r, g) :: rest) := by
            simp [List.lookup, hne2]
          rw [hlk, ← hg, ih hxs, List.filter_cons]
          have hpx : (x.ratio == r') = false := by simp [Ne.symm hr']
          simp [hpx]

/-- Claim C5 (confirmed): the final output joins the group blocks with one
blank line in strictly ascending ratio order (the mapped keys of
`prepareImages` form a `<`-chain), the ratio-1 group is emitted unwrapped
(the `g.1 > 1` test fails), and every group of ratio above 1 is wrapped in
exactly the media query
`@media (-webkit-min-device-pixel-ratio: <ratio>), (min-resolution: <ratio*96>dpi) {`
followed by a newline, a tab, the newline-joined rules, a newline and `}`. -/
theorem c5_group_order :
    ∀ (numStr : ℚ → String) (inputs : List (String × Size)) (stylesheet : String),
      ((prepareImages inputs stylesheet).map Prod.fst).Chain' (· < ·) ∧
      processImagesCore numStr inputs stylesheet =
        String.intercalate "\n\n" ((prepareImages inputs stylesheet).map
          (fun g =>
            if g.1 > 1 then
              "@media (-webkit-min-device-pixel-ratio: " ++ toString g.1 ++
              "), (min-resolution: " ++ toString (g.1 * 96) ++ "dpi) \x7b\n\t" ++
              String.intercalate "\n" (g.2.map (cssRule numStr)) ++ "\n\x7d"
            else String.intercalate "\n" (g.2.map (cssRule numStr)))) := by
  intro numStr inputs stylesheet
  constructor
  · exact groupRuns_keys _ (sortImages_pairwise _)
  · rfl

/-- Claim C6 (confirmed): grouping by ratio is a stable partition — for
every ratio `r`, the group stored under `r` (when present) is exactly the
subsequence of descriptors of ratio `r` in input order (`List.filter`
preserves the relative order of the input sequence); the emitted rules
within a group map this list in order (see the second conjunct of the C5
theorem, where each block is the in-order `map` of `cssRule` over the
group). -/
theorem c6_stable_grouping :
    ∀ (inputs : List (String × Size)) (stylesheet : String) (r : ℕ),
      List.lookup r (prepareImages inputs stylesheet) =
        (if ((inputs.map (fun q => toImage stylesheet q.1 q.2)).filter
              (fun i => i.ratio == r)).isEmpty then none
         else some ((inputs.map (fun q => toImage stylesheet q.1 q.2)).filter
              (fun i => i.ratio == r))) := by
  intro inputs stylesheet r
  have h1 := groupRuns_lookup
    (sortImages (inputs.map (fun q => toImage stylesheet q.1 q.2)))
    (sortImages_pairwise _) r
  rw [sortImages_filter] at h1
  exact h1

theorem toLower_of_lower_digit (c : Char) (h : (c.isLower || c.isDigit) = true) :
    Char.toLower c = c := by
  simp only [Bool.or_eq_true] at h
  have hno : ¬ (65 ≤ Char.toNat c ∧ Char.toNat c ≤ 90) := by
    rcases h with h | h
    · simp only [Char.isLower, Bool.and_eq_true, decide_eq_true_eq] at h
      have h97 : (97 : ℕ) ≤ c.val.toNat := h.1
      intro hc
      have h90 : c.val.toNat ≤ 90 := hc.2
      omega
    · simp only [Char.isDigit, Bool.and_eq_true, decide_eq_true_eq] at h
      have h57 : c.val.toNat ≤ 57 := h.2
      intro hc
      have h65 : (65 : ℕ) ≤ c.val.toNat := hc.1
      omega
  simp [Char.toLower, hno]

theorem toLower_shape (c : Char) (h : (c.isLower || c.isDigit || c.isUpper) = true) :
    ((Char.toLower c).isLower || (Char.toLower c).isDigit) = true := by
  rcases Bool.or_eq_true _ _ |>.mp h with h' | h'
  · rw [toLower_of_lower_digit c h']
    simpa using h'
  · simp only [Char.isUpper, Bool.and_eq_true, decide_eq_true_eq] at h'
    have h65 : (65 : ℕ) ≤ c.val.toNat := h'.1
    have h90 : c.val.toNat ≤ 90 := h'.2
    have hyes : 65 ≤ Char.toNat c ∧ Char.toNat c ≤ 90 := ⟨h65, h90⟩
    rw [Char.toLower, if_pos hyes]
    have hb : 97 ≤ Char.toNat c + 32 ∧ Char.toNat c + 32 ≤ 122 := by
      constructor <;> omega
    generalize hn : Char.toNat c + 32 = n at hb
    obtain ⟨ha, hb'⟩ := hb
    interval_cases n <;> decide

theorem splitWordsAux_alnum (fuel : ℕ) : ∀ (l : List Char),
    ∀ w ∈ splitWordsAux fuel l, ∀ c ∈ w,
      (c.isLower || c.isDigit || c.isUpper) = true := by
  induction fuel with
  | zero =>
    intro l w hw
    simp [splitWordsAux] at hw
  | succ fuel ih =>
    intro l w hw c hc
    cases l with
    | nil => simp [splitWordsAux] at hw
    | cons a cs =>
      by_cases ha : a.isLower
      · simp only [splitWordsAux, ha, if_true, List.mem_cons] at hw
        rcases hw with hw | hw
        · subst hw
          rcases List.mem_cons.mp hc with hc | hc
          · simp [hc, ha]
          · simp [runWhile_fst_all Char.isLower cs c hc]
        · exact ih _ w hw c hc
      · by_cases hd : a.isDigit
        · simp only [splitWordsAux, ha, hd, if_true, Bool.false_eq_true, if_false,
            List.mem_cons] at hw
          rcases hw with hw | hw
          · subst hw
            rcases List.mem_cons.mp hc with hc | hc
            · simp [hc, hd]
            · simp [runWhile_fst_all Char.isDigit cs c hc]
          · exact ih _ w hw c hc
        · by_cases hu : a.isUpper
          · have hupper : ∀ e ∈ (runWhile Char.isUpper cs).1, e.isUpper = true :=
              runWhile_fst_all Char.isUpper cs
            rcases hu2 : (runWhile Char.isUpper cs).2 with _ | ⟨d, ds⟩
            · simp only [splitWordsAux, ha, hd, hu, if_true, Bool.false_eq_true,
                if_false, hu2, List.mem_singleton] at hw
              subst hw
              rcases List.mem_cons.mp hc with hc | hc
              · simp [hc, hu]
              · simp [hupper c hc]
            · by_cases hdl : d.isLower
              · rcases hu1 : (runWhile Char.isUpper cs).1 with _ | ⟨u1, ut⟩
                · simp only [splitWordsAux, ha, hd, hu, if_true, Bool.false_eq_true,
                    if_false, hu2, hdl, hu1, List.mem_cons] at hw
                  rcases hw with hw | hw
                  · subst hw
                    rcases List.mem_cons.mp hc with hc | hc
                    · simp [hc, hu]
                    · have := runWhile_fst_all Char.isLower
                        (runWhile Char.isUpper cs).2 c
                      rw [hu2] at this
                      simp [this hc]
                  · exact ih _ w hw c hc
                · simp only [splitWordsAux, ha, hd, hu, if_true, Bool.false_eq_true,
                    if_false, hu2, hdl, hu1, List.mem_cons] at hw
                  have hmem_ult : ∀ e ∈ a :: u1 :: ut, e.isUpper = true := by
                    intro e he
                    rcases List.mem_cons.mp he with he | he
                    · simp [he, hu]
                    · rw [← hu1] at he
                      simp [hupper e he]
                  rcases hw with hw | hw | hw
                  · subst hw
                    have hsub : c ∈ a :: u1 :: ut :=
                      (List.dropLast_prefix (a :: u1 :: ut)).subset hc
                    simp [hmem_ult c hsub]
                  · subst hw
                    rcases List.mem_cons.mp hc with hc | hc
                    · have hlast := List.getLast_mem (List.cons_ne_nil a (u1 :: ut))
                      rw [← hc] at hlast
                      simp [hmem_ult c hlast]
                    · have := runWhile_fst_all Char.isLower
                        (runWhile Char.isUpper cs).2 c
                      rw [hu2] at this
                      simp [this hc]
                  · exact ih _ w hw c hc
              · simp only [splitWordsAux, ha, hd, hu, if_true, Bool.false_eq_true,
                  if_false, hu2, hdl, List.mem_cons] at hw
                rcases hw with hw | hw
                · subst hw
                  rcases List.mem_cons.mp hc with hc | hc
                  · simp [hc, hu]
                  · simp [hupper c hc]
                · exact ih _ w hw c hc
          · simp only [splitWordsAux, ha, hd, hu, Bool.false_eq_true, if_false] at hw
            exact ih _ w hw c hc

theorem foldl_join_mem (rest : List (List Char)) (acc : List Char) (c : Char)
    (hc : c ∈ rest.foldl (fun acc v => acc ++ '-' :: v) acc) :
    c ∈ acc ∨ c = '-' ∨ ∃ v ∈ rest, c ∈ v := by
  induction rest generalizing acc with
  | nil => simpa using Or.inl hc
  | cons v vs ih =>
    rcases ih (acc ++ '-' :: v) hc with h | h | h
    · rcases List.mem_append.mp h with h | h
      · exact Or.inl h
      · rcases List.mem_cons.mp h with h | h
        · exact Or.inr (Or.inl h)
        · exact Or.inr (Or.inr ⟨v, List.mem_cons_self v vs, h⟩)
    · exact Or.inr (Or.inl h)
    · obtain ⟨v', hv', hcv⟩ := h
      exact Or.inr (Or.inr ⟨v', List.mem_cons_of_mem _ hv', hcv⟩)

theorem kebabJoin_shape (ws : List (List Char))
    (hword : ∀ v ∈ ws, ∀ e ∈ v, (e.isLower || e.isDigit) = true) :
    ∀ c ∈ kebabJoin ws, (c.isLower || c.isDigit || c == '-') = true := by
  intro c hc
  rcases ws with _ | ⟨w, rest⟩
  · simp [kebabJoin] at hc
  · unfold kebabJoin at hc
    rcases List.mem_append.mp hc with hc | hc
    · have := hword w (List.mem_cons_self w rest) c hc
      rcases Bool.or_eq_true _ _ |>.mp this with h | h <;> simp [h]
    · rcases foldl_join_mem rest [] c hc with h | h | h
      · simp at h
      · simp [h]
      · obtain ⟨v, hv, hcv⟩ := h
        have := hword v (List.mem_cons_of_mem w hv) c hcv
        rcases Bool.or_eq_true _ _ |>.mp this with h | h <;> simp [h]

theorem kebabData_shape (l : List Char) :
    ∀ c ∈ kebabData l, (c.isLower || c.isDigit || c == '-') = true := by
  intro c hc
  unfold kebabData at hc
  refine kebabJoin_shape _ ?_ c hc
  intro v hv e he
  obtain ⟨word, hw, hveq⟩ := List.mem_map.mp hv
  subst hveq
  obtain ⟨e', he', heq⟩ := List.mem_map.mp he
  subst heq
  exact toLower_shape e' (splitWordsAux_alnum _ _ word hw e' he')

/-- Claim C8 (confirmed): when the stripped basename contains no underscore,
the selector is `.` followed by `kebabCase` of the stripped base; every
character `kebabCase` produces is a lowercase letter, a digit or a hyphen
(lowercase, hyphen-separated words); and `Icon.PNG` yields `.icon`. -/
theorem c8_kebab_selector :
    (∀ file : String, (stripName (basename file)).data.contains '_' = false →
      getSelector file = "." ++ kebabCase (stripName (basename file))) ∧
    (∀ s : String, ∀ c ∈ (kebabCase s).data,
      (c.isLower || c.isDigit || c == '-') = true) ∧
    getSelector "Icon.PNG" = ".icon" ∧ kebabCase "Icon" = "icon" := by
  refine ⟨?_, ?_, by decide, by decide⟩
  · intro file h
    simp only [getSelector, h, Bool.false_eq_true, if_false]
  · intro s c hc
    exact kebabData_shape s.data c hc

/-- Witness for claim C8 at the path `Icon.PNG`, whose stripped basename
`Icon` contains no underscore. -/
theorem c8_witness :
    (stripName (basename "Icon.PNG")).data.contains '_' = false ∧
    getSelector "Icon.PNG" = "." ++ kebabCase (stripName (basename "Icon.PNG")) :=
  ⟨by decide, c8_kebab_selector.1 "Icon.PNG" (by decide)⟩

theorem ratioThree_shape (rev : List Char) (v : ℕ) (h : ratioThree rev = some v) :
    ∃ e1 e2 e3 x dg t, rev = e1 :: e2 :: e3 :: '.' :: x :: dg :: '@' :: t ∧
      isAsciiLetter e1 = true ∧ isAsciiLetter e2 = true ∧ isAsciiLetter e3 = true ∧
      (x = 'x' ∨ x = 'X') ∧ dg.isDigit = true ∧ v = digitVal dg := by
  rcases rev with _ | ⟨c1, _ | ⟨c2, _ | ⟨c3, _ | ⟨c4, _ | ⟨c5, _ | ⟨c6, _ | ⟨c7, t⟩⟩⟩⟩⟩⟩⟩
  · simp [ratioThree] at h
  · simp [ratioThree] at h
  · simp [ratioThree] at h
  · simp [ratioThree] at h
  · simp [ratioThree] at h
  · simp [ratioThree] at h
  · simp [ratioThree] at h
  · simp only [ratioThree] at h
    split_ifs at h with hg
    · simp only [Bool.and_eq_true, beq_iff_eq, Bool.or_eq_true] at hg
      obtain ⟨⟨⟨⟨⟨⟨h1, h2⟩, h3⟩, h4⟩, h5⟩, h6⟩, h7⟩ := hg
      subst h4
      subst h7
      exact ⟨c1, c2, c3, c5, c6, t, rfl, h1, h2, h3, h5, h6,
        (Option.some_injective _ h).symm⟩

theorem ratioFour_shape (rev : List Char) (v : ℕ) (h : ratioFour rev = some v) :
    ∃ e1 e2 e3 e4 x dg t,
      rev = e1 :: e2 :: e3 :: e4 :: '.' :: x :: dg :: '@' :: t ∧
      isAsciiLetter e1 = true ∧ isAsciiLetter e2 = true ∧
      isAsciiLetter e3 = true ∧ isAsciiLetter e4 = true ∧
      (x = 'x' ∨ x = 'X') ∧ dg.isDigit = true ∧ v = digitVal dg := by
  rcases rev with _ | ⟨c1, _ | ⟨c2, _ | ⟨c3, _ | ⟨c4, _ | ⟨c5, _ | ⟨c6, _ |
    ⟨c7, _ | ⟨c8, t⟩⟩⟩⟩⟩⟩⟩⟩
  · simp [ratioFour] at h
  · simp [ratioFour] at h
  · simp [ratioFour] at h
  · simp [ratioFour] at h
  · simp [ratioFour] at h
  · simp [ratioFour] at h
  · simp [ratioFour] at h
  · simp [ratioFour] at h
  · simp only [ratioFour] at h
    split_ifs at h with hg
    · simp only [Bool.and_eq_true, beq_iff_eq, Bool.or_eq_true] at hg
      obtain ⟨⟨⟨⟨⟨⟨⟨h1, h2⟩, h3⟩, h4⟩, h5⟩, h6⟩, h7⟩, h8⟩ := hg
      subst h5
      subst h8
      exact ⟨c1, c2, c3, c4, c6, c7, t, rfl, h1, h2, h3, h4, h6, h7,
        (Option.some_injective _ h).symm⟩

theorem length_eq_four_chars (l : List Char) (h : l.length = 4) :
    ∃ a b c d, l = [a, b, c, d] := by
  rcases l with _ | ⟨a, _ | ⟨b, _ | ⟨c, _ | ⟨d, _ | ⟨e, t⟩⟩⟩⟩⟩
  · simp at h
  · simp at h
  · simp at h
  · simp at h
  · exact ⟨a, b, c, d, rfl⟩
  · simp at h

theorem getRatio_density (b : String) (d x : Char) (ext : String)
    (hd : d.isDigit = true) (hx : x = 'x' ∨ x = 'X')
    (hlen : ext.data.length = 3 ∨ ext.data.length = 4)
    (hletters : ∀ c ∈ ext.data, isAsciiLetter c = true) :
    getRatio (b ++ String.mk ['@', d, x, '.'] ++ ext) = digitVal d := by
  unfold getRatio
  have hrev : (b ++ String.mk ['@', d, x, '.'] ++ ext).data.reverse =
      ext.data.reverse ++ '.' :: x :: d :: '@' :: b.data.reverse := by
    simp [String.data_append]
  rw [hrev]
  rcases hlen with hlen | hlen
  · obtain ⟨e1, e2, e3, hext⟩ := List.length_eq_three.mp hlen
    rw [hext] at hletters
    have hl1 : isAsciiLetter e1 = true := hletters e1 (by simp)
    have hl2 : isAsciiLetter e2 = true := hletters e2 (by simp)
    have hl3 : isAsciiLetter e3 = true := hletters e3 (by simp)
    rw [hext]
    rcases hb : b.data.reverse with _ | ⟨bb, bt⟩ <;>
      rcases hx with hx | hx <;> subst hx <;>
        simp [ratioFour, ratioThree, hl1, hl2, hl3, hd]
  · obtain ⟨e1, e2, e3, e4, hext⟩ := length_eq_four_chars ext.data hlen
    rw [hext] at hletters
    have hl1 : isAsciiLetter e1 = true := hletters e1 (by simp)
    have hl2 : isAsciiLetter e2 = true := hletters e2 (by simp)
    have hl3 : isAsciiLetter e3 = true := hletters e3 (by simp)
    have hl4 : isAsciiLetter e4 = true := hletters e4 (by simp)
    rw [hext]
    rcases hx with hx | hx <;> subst hx <;>
      simp [ratioFour, hl1, hl2, hl3, hl4, hd]

theorem getRatio_multi_digit (b ds ext : String)
    (hlen : 2 ≤ ds.data.length) (hdig : ∀ c ∈ ds.data, Char.isDigit c = true)
    (hedot : '.' ∉ ext.data) :
    getRatio (b ++ "@" ++ ds ++ "x." ++ ext) = 1 := by
  have hrev : (b ++ "@" ++ ds ++ "x." ++ ext).data.reverse =
      ext.data.reverse ++ '.' :: 'x' ::
        (ds.data.reverse ++ '@' :: b.data.reverse) := by
    simp [String.data_append]
  have hlenr : 2 ≤ ds.data.reverse.length := by simpa using hlen
  rcases hdr : ds.data.reverse with _ | ⟨d1, _ | ⟨d2, dr⟩⟩
  · rw [hdr] at hlenr
    simp at hlenr
  · rw [hdr] at hlenr
    simp at hlenr
  · have hd2 : Char.isDigit d2 = true := by
      apply hdig
      rw [← List.mem_reverse, hdr]
      simp
    rw [hdr] at hrev
    have h4 : ratioFour (b ++ "@" ++ ds ++ "x." ++ ext).data.reverse = none := by
      cases hr4 : ratioFour (b ++ "@" ++ ds ++ "x." ++ ext).data.reverse with
      | none => rfl
      | some v =>
        exfalso
        obtain ⟨f1, f2, f3, f4, x, dg, t, heq, hg1, hg2, hg3, hg4, hgx, hgd, _⟩ :=
          ratioFour_shape _ v hr4
        rw [hrev] at heq
        rcases hE : ext.data.reverse with _ | ⟨a1, _ | ⟨a2, _ | ⟨a3, _ | ⟨a4, rest⟩⟩⟩⟩
        · rw [hE] at heq
          simp only [List.nil_append, List.cons_append, List.cons.injEq] at heq
          rw [← heq.1] at hg1
          simp [isAsciiLetter] at hg1
        · rw [hE] at heq
          simp only [List.cons_append, List.nil_append, List.cons.injEq] at heq
          rw [← heq.2.1] at hg2
          simp [isAsciiLetter] at hg2
        · rw [hE] at heq
          simp only [List.cons_append, List.nil_append, List.cons.injEq] at heq
          rw [← heq.2.2.1] at hg3
          simp [isAsciiLetter] at hg3
        · rw [hE] at heq
          simp only [List.cons_append, List.nil_append, List.cons.injEq] at heq
          rw [← heq.2.2.2.1] at hg4
          simp [isAsciiLetter] at hg4
        · rw [hE] at heq
          cases rest with
          | nil =>
            simp only [List.cons_append, List.nil_append, List.cons.injEq] at heq
            have hd2at : d2 = '@' := heq.2.2.2.2.2.2.2.1
            rw [hd2at] at hd2
            simp [Char.isDigit] at hd2
          | cons a5 rest' =>
            simp only [List.cons_append, List.cons.injEq] at heq
            have ha5 : a5 = '.' := heq.2.2.2.2.1
            apply hedot
            rw [← List.mem_reverse, hE, ha5]
            simp
    have h3 : ratioThree (b ++ "@" ++ ds ++ "x." ++ ext).data.reverse = none := by
      cases hr3 : ratioThree (b ++ "@" ++ ds ++ "x." ++ ext).data.reverse with
      | none => rfl
      | some v =>
        exfalso
        obtain ⟨f1, f2, f3, x, dg, t, heq, hg1, hg2, hg3, hgx, hgd, _⟩ :=
          ratioThree_shape _ v hr3
        rw [hrev] at heq
        rcases hE : ext.data.reverse with _ | ⟨a1, _ | ⟨a2, _ | ⟨a3, rest⟩⟩⟩
        · rw [hE] at heq
          simp only [List.nil_append, List.cons_append, List.cons.injEq] at heq
          rw [← heq.1] at hg1
          simp [isAsciiLetter] at hg1
        · rw [hE] at heq
          simp only [List.cons_append, List.nil_append, List.cons.injEq] at heq
          rw [← heq.2.1] at hg2
          simp [isAsciiLetter] at hg2
        · rw [hE] at heq
          simp only [List.cons_append, List.nil_append, List.cons.injEq] at heq
          rw [← heq.2.2.1] at hg3
          simp [isAsciiLetter] at hg3
        · rw [hE] at heq
          cases rest with
          | nil =>
            simp only [List.cons_append, List.nil_append, List.cons.injEq] at heq
            have hd2at : d2 = '@' := heq.2.2.2.2.2.2.1
            rw [hd2at] at hd2
            simp [Char.isDigit] at hd2
          | cons a4 rest' =>
            simp only [List.cons_append, List.cons.injEq] at heq
            have ha4 : a4 = '.' := heq.2.2.2.1
            apply hedot
            rw [← List.mem_reverse, hE, ha4]
            simp
    unfold getRatio
    rw [h4, h3]

theorem getRatio_complete (file : String) :
    getRatio file = 1 ∨
    ∃ (bs : String) (d x : Char) (es : String),
      file = bs ++ String.mk ['@', d, x, '.'] ++ es ∧
      d.isDigit = true ∧ (x = 'x' ∨ x = 'X') ∧
      (es.data.length = 3 ∨ es.data.length = 4) ∧
      (∀ c ∈ es.data, isAsciiLetter c = true) ∧
      getRatio file = digitVal d := by
  rcases h4 : ratioFour file.data.reverse with _ | v
  · rcases h3 : ratioThree file.data.reverse with _ | v
    · left
      unfold getRatio
      rw [h4, h3]
    · right
      obtain ⟨e1, e2, e3, x, dg, t, hrev, hl1, hl2, hl3, hx, hdg, hv⟩ :=
        ratioThree_shape _ _ h3
      refine ⟨String.mk t.reverse, dg, x, String.mk [e3, e2, e1],
        ?_, hdg, hx, Or.inl rfl, ?_, ?_⟩
      · apply String.ext
        have hfd : file.data = file.data.reverse.reverse :=
          (List.reverse_reverse _).symm
        rw [hfd, hrev]
        simp [String.data_append]
      · intro c hc
        simp only [List.mem_cons, List.not_mem_nil, or_false] at hc
        rcases hc with rfl | rfl | rfl
        · exact hl3
        · exact hl2
        · exact hl1
      · unfold getRatio
        rw [h4, h3, hv]
  · right
    obtain ⟨e1, e2, e3, e4, x, dg, t, hrev, hl1, hl2, hl3, hl4, hx, hdg, hv⟩ :=
      ratioFour_shape _ _ h4
    refine ⟨String.mk t.reverse, dg, x, String.mk [e4, e3, e2, e1],
      ?_, hdg, hx, Or.inr rfl, ?_, ?_⟩
    · apply String.ext
      have hfd : file.data = file.data.reverse.reverse :=
        (List.reverse_reverse _).symm
      rw [hfd, hrev]
      simp [String.data_append]
    · intro c hc
      simp only [List.mem_cons, List.not_mem_nil, or_false] at hc
      rcases hc with rfl | rfl | rfl | rfl
      · exact hl4
      · exact hl3
      · exact hl2
      · exact hl1
    · unfold getRatio
      rw [h4, hv]

/-- Claim C3 (corrected): the density parser matches a suffix
`@` + one digit + `x` only when it is followed by a `.` and an extension of
exactly three or four ASCII letters (the regex is
`/@(\d)x\.[a-z]{3,4}$/gi`), not for every basename ending in `@<d>x` before
an arbitrary extension.  Positively, for every such well-formed path the
ratio is the digit and the suffix is stripped from the base used for the
selector; conversely, every path either has ratio 1 or decomposes as
`base @<d>x . ext` with a 3-or-4-letter extension and ratio the digit.
Concrete probes show the extension constraint is real: a two-letter,
five-letter or digit-bearing extension yields ratio 1. -/
theorem c3_amended :
    (∀ (b : String) (d : Char) (ext : String),
      d.isDigit = true →
      (ext.data.length = 3 ∨ ext.data.length = 4) →
      (∀ c ∈ ext.data, isAsciiLetter c = true) →
      '.' ∉ b.data → '/' ∉ b.data → '/' ∉ ext.data →
      getRatio (b ++ "@" ++ String.mk [d] ++ "x." ++ ext) = digitVal d ∧
      stripName (basename (b ++ "@" ++ String.mk [d] ++ "x." ++ ext)) = b) ∧
    (∀ file : String, getRatio file = 1 ∨
      ∃ (bs : String) (d x : Char) (es : String),
        file = bs ++ String.mk ['@', d, x, '.'] ++ es ∧ d.isDigit = true ∧
        (x = 'x' ∨ x = 'X') ∧ (es.data.length = 3 ∨ es.data.length = 4) ∧
        (∀ c ∈ es.data, isAsciiLetter c = true) ∧ getRatio file = digitVal d) ∧
    getRatio "icon@2x.ab" = 1 ∧ getRatio "icon@2x.jpeg" = 2 ∧
    getRatio "icon@2x.jpegs" = 1 ∧ getRatio "icon@2x.pn1" = 1 ∧
    getRatio "icon@2X.PNG" = 2 := by
  refine ⟨?_, getRatio_complete, by decide, by decide, by decide, by decide,
    by decide⟩
  intro b d ext hd hlen hlet hb1 hb2 he3
  constructor
  · have hsame : b ++ "@" ++ String.mk [d] ++ "x." ++ ext =
        b ++ String.mk ['@', d, 'x', '.'] ++ ext := by
      apply String.ext
      simp [String.data_append]
    rw [hsame]
    exact getRatio_density b d 'x' ext hd (Or.inl rfl) hlen hlet
  · apply stripName_density_shape b (String.mk [d]) ext hb1 hb2
    · simp
    · intro c hc
      have hcd : c = d := by simpa using hc
      rw [hcd]
      exact hd
    · intro hc
      have hcd : '/' = d := by simpa using hc
      rw [← hcd] at hd
      exact absurd hd (by decide)
    · intro h
      rw [h] at hlen
      simp at hlen
    · intro hm
      exact absurd (hlet '\n' hm) (by decide)
    · exact he3

/-- Counterexample to the unamended claim C3: the basename of `a@2x.ab`
before its extension is `a@2x`, which ends in `@` + digit + `x`, yet the
ratio is 1 and not 2, because the extension `ab` has only two letters;
the suffix is nevertheless stripped for the selector base. -/
theorem c3_counterexample :
    getRatio "a@2x.ab" = 1 ∧ getRatio "a@2x.ab" ≠ 2 ∧
    stripName (basename "a@2x.ab") = "a" := by
  refine ⟨by decide, by decide, by decide⟩

/-- Witness for claim C3 at base `icon`, digit `2`, extension `png`. -/
theorem c3_witness :
    getRatio ("icon" ++ "@" ++ String.mk ['2'] ++ "x." ++ "png") = digitVal '2' ∧
    stripName (basename ("icon" ++ "@" ++ String.mk ['2'] ++ "x." ++ "png")) =
      "icon" :=
  c3_amended.1 "icon" '2' "png" (by decide) (by decide) (by decide) (by decide)
    (by decide) (by decide)

/-- Claim C9 (confirmed): for a basename ending in `@` + two or more digits +
`x` before the extension, `getRatio` returns 1 — the regex `@(\d)x` captures a
single digit, so the character before `@<d>x` would have to be the extra
digit, which cannot equal `@` — while the selector regex `(@\d+x)?\..+$`
matches one-or-more digits and strips the whole suffix, so the asset gets the
suffix-free kebab selector; in the built descriptor the ratio field is 1, so
the asset lands in the base-density (unwrapped) group.  Instantiated at
`icon@10x.png`. -/
theorem c9_multi_digit :
    (∀ (b ds ext st : String) (sz : Size),
      2 ≤ ds.data.length → (∀ c ∈ ds.data, Char.isDigit c = true) →
      '.' ∉ b.data → '_' ∉ b.data → '/' ∉ b.data →
      ext ≠ "" → '.' ∉ ext.data → '\n' ∉ ext.data → '/' ∉ ext.data →
      getRatio (b ++ "@" ++ ds ++ "x." ++ ext) = 1 ∧
      stripName (basename (b ++ "@" ++ ds ++ "x." ++ ext)) = b ∧
      getSelector (b ++ "@" ++ ds ++ "x." ++ ext) = "." ++ kebabCase b ∧
      (toImage st (b ++ "@" ++ ds ++ "x." ++ ext) sz).ratio = 1) ∧
    getRatio "icon@10x.png" = 1 ∧ getSelector "icon@10x.png" = ".icon" := by
  refine ⟨?_, by decide, by decide⟩
  intro b ds ext st sz hlen hdig hb1 hb2 hb3 he1 he2 he3 he4
  have hratio := getRatio_multi_digit b ds ext hlen hdig he2
  have hd1 : ds.data ≠ [] := by
    intro h
    rw [h] at hlen
    simp at hlen
  have hd3 : '/' ∉ ds.data := by
    intro hm
    exact absurd (hdig '/' hm) (by decide)
  have hstrip := stripName_density_shape b ds ext hb1 hb3 hd1 hdig hd3 he1 he3 he4
  have hcont : b.data.contains '_' = false := by
    simpa using hb2
  have hsel : getSelector (b ++ "@" ++ ds ++ "x." ++ ext) = "." ++ kebabCase b := by
    simp only [getSelector, hstrip, hcont, Bool.false_eq_true, if_false]
  exact ⟨hratio, hstrip, hsel, hratio⟩

/-- Witness for claim C9 at the path `icon@10x.png`. -/
theorem c9_witness :
    getRatio ("icon" ++ "@" ++ "10" ++ "x." ++ "png") = 1 ∧
    stripName (basename ("icon" ++ "@" ++ "10" ++ "x." ++ "png")) = "icon" ∧
    getSelector ("icon" ++ "@" ++ "10" ++ "x." ++ "png") = "." ++ kebabCase "icon" ∧
    (toImage "style.css" ("icon" ++ "@" ++ "10" ++ "x." ++ "png") ⟨4, 4⟩).ratio = 1 :=
  c9_multi_digit.1 "icon" "10" "png" "style.css" ⟨4, 4⟩ (by decide) (by decide)
    (by decide) (by decide) (by decide) (by decide) (by decide) (by decide)
    (by decide)

end LazyRules

